import Mathlib

/-!
Verification of the `casys_engine` graph-index core
(`src/crates/casys_engine/src/index/mod.rs` and
`src/crates/casys_engine/src/index/persistence.rs`).

The Rust code is shallowly embedded as follows.

* `HashMap<K, V>` becomes an association list `List (K × V)` with
  replace-or-append insertion (`hmInsert`), first-match lookup (`hmGet`) and
  the `entry(k).or_insert_with(Vec::new).push(x)` idiom (`hmPush`).  The
  model fixes a deterministic iteration order (insertion order of keys);
  the Rust `HashMap` iteration order is arbitrary, so claims that compare
  index lists are stated up to the order guarantees the spec itself gives.
* `serde_json::Value` becomes the inductive `Json`; byte payloads exchanged
  with serde_json are modelled at the level of parsed JSON documents by
  `Bytes` (`Bytes.malformed` stands for any byte sequence on which
  `serde_json::from_slice` fails, and `serde_json::to_vec` followed by
  `from_slice` is the identity on documents).
* Machine `u64` ids become `Nat`; the `as_u64` accessor keeps the
  representability bound `< 2^64` explicit, and every counter increment the
  source performs on a `u64` (`id + 1`, `+= 1`) is taken modulo `2^64`,
  so the model wraps exactly where the source's release-mode `u64`
  arithmetic wraps.
-/

/-- JSON document model for `serde_json::Value` (an external crate): null,
booleans, (non-negative integral) numbers, strings, arrays and objects. -/
inductive Json where
  | null : Json
  | bool (b : Bool) : Json
  | num (n : Nat) : Json
  | str (s : String) : Json
  | arr (elems : List Json) : Json
  | obj (fields : List (String × Json)) : Json

/-- Field lookup in a JSON object field list: first binding wins, missing
keys yield `null` (serde_json `Value::index` semantics). -/
def objFind : List (String × Json) → String → Json
  | [], _ => Json.null
  | (k, v) :: rest, key => if k = key then v else objFind rest key

/-- The `json[key]` operator of serde_json: `null` on non-objects. -/
def Json.index (j : Json) (key : String) : Json :=
  match j with
  | .obj fields => objFind fields key
  | _ => Json.null

/-- serde_json `Value::as_str`. -/
def Json.as_str : Json → Option String
  | .str s => some s
  | _ => none

/-- serde_json `Value::as_u64`: succeeds exactly on numbers representable
in a `u64`. -/
def Json.as_u64 : Json → Option Nat
  | .num n => if n < 2 ^ 64 then some n else none
  | _ => none

/-- serde_json `Value::as_array`. -/
def Json.as_array : Json → Option (List Json)
  | .arr elems => some elems
  | _ => none

/-- serde_json `Value::as_object`. -/
def Json.as_object : Json → Option (List (String × Json))
  | .obj fields => some fields
  | _ => none

/-- Helper for `serde_json::from_value::<Vec<String>>`: all elements must be
strings, otherwise the whole conversion fails. -/
def jsonStrings : List Json → Option (List String)
  | [] => some []
  | Json.str s :: rest => (jsonStrings rest).map (fun l => s :: l)
  | _ :: _ => none

/-- `serde_json::from_value::<Vec<String>>` on a JSON value. -/
def Json.as_string_list : Json → Option (List String)
  | .arr elems => jsonStrings elems
  | _ => none

/-- Modelled from the spec: the property value model
(`crate::exec::executor::Value`, not part of the provided sources) is an
external collaborator whose contract (spec section 6) is a lossless
projection to and reconstruction from a JSON-compatible value.  It is
modelled as the JSON projection itself. -/
abbrev Value := Json

/-- Modelled from the spec: `Value::to_json`, the lossless JSON projection. -/
def Value.to_json (v : Value) : Json := v

/-- Modelled from the spec: `Value::from_json`, reconstruction from the JSON
projection; values that cannot be reconstructed yield `none` (the lossless
model reconstructs everything). -/
def Value.from_json (j : Json) : Option Value := some j

/-- Modelled from the spec: `EngineError` (`crate::types`, not part of the
provided sources) is a single storage/IO error kind carrying a descriptive
message (spec section 7, Rust variant name `EngineError::StorageIo`). -/
inductive EngineError where
  | storageIoErr (msg : String) : EngineError
deriving DecidableEq

/-- A byte payload, modelled at the granularity the WAL/segment code
observes it: either a parseable JSON document or a malformed blob. -/
inductive Bytes where
  | json (j : Json) : Bytes
  | malformed : Bytes

/-- `HashMap::get` on the association-list model (first match). -/
def hmGet {α β : Type} [DecidableEq α] : List (α × β) → α → Option β
  | [], _ => none
  | (k, v) :: rest, key => if k = key then some v else hmGet rest key

/-- `HashMap::insert` on the association-list model: replace the existing
binding in place, or append a fresh one. -/
def hmInsert {α β : Type} [DecidableEq α] : List (α × β) → α → β → List (α × β)
  | [], key, v => [(key, v)]
  | (k, w) :: rest, key, v =>
      if k = key then (k, v) :: rest else (k, w) :: hmInsert rest key v

/-- The `map.entry(key).or_insert_with(Vec::new).push(x)` idiom. -/
def hmPush {α β : Type} [DecidableEq α] : List (α × List β) → α → β → List (α × List β)
  | [], key, x => [(key, [x])]
  | (k, xs) :: rest, key, x =>
      if k = key then (k, xs ++ [x]) :: rest else (k, xs) :: hmPush rest key x

/-- Lookup of an index list, defaulting to the empty list. -/
def hmGetList {α β : Type} [DecidableEq α] (m : List (α × List β)) (key : α) : List β :=
  (hmGet m key).getD []

/-- `Node` (mod.rs): id, labels, properties. -/
structure Node where
  id : Nat
  labels : List String
  properties : List (String × Value)

/-- `Edge` (mod.rs): id, endpoints, type tag, properties. -/
structure Edge where
  id : Nat
  from_node : Nat
  to_node : Nat
  edge_type : String
  properties : List (String × Value)

/-- `InMemoryGraphStore` (mod.rs): primary tables, label index, adjacency
indexes and the two id counters. -/
structure InMemoryGraphStore where
  nodes : List (Nat × Node)
  edges : List (Nat × Edge)
  label_index : List (String × List Nat)
  adjacency_out : List (Nat × List Nat)
  adjacency_in : List (Nat × List Nat)
  next_node_id : Nat
  next_edge_id : Nat

/-- `InMemoryGraphStore::new`. -/
def InMemoryGraphStore.new : InMemoryGraphStore :=
  ⟨[], [], [], [], [], 1, 1⟩

/-- `scan_all` (mod.rs): all nodes, in table iteration order. -/
def scan_all (s : InMemoryGraphStore) : Except EngineError (List Node) :=
  .ok (s.nodes.map Prod.snd)

/-- `scan_by_label` (mod.rs): resolve the label index entry and look each id
up in the node table; unknown labels yield the empty list, not an error. -/
def scan_by_label (s : InMemoryGraphStore) (label : String) :
    Except EngineError (List Node) :=
  match hmGet s.label_index label with
  | some node_ids => .ok (node_ids.filterMap (fun id => hmGet s.nodes id))
  | none => .ok []

/-- `get_node` (mod.rs). -/
def get_node (s : InMemoryGraphStore) (id : Nat) :
    Except EngineError (Option Node) :=
  .ok (hmGet s.nodes id)

/-- Loop body of `get_neighbors` (mod.rs): walk the outgoing edge-id list,
skip unresolvable edges, apply the optional type filter, skip dangling
destinations. -/
def get_neighbors_go (s : InMemoryGraphStore) (edge_type : Option String) :
    List Nat → List (Edge × Node)
  | [] => []
  | edge_id :: rest =>
    match hmGet s.edges edge_id with
    | none => get_neighbors_go s edge_type rest
    | some edge =>
      match edge_type with
      | some et =>
        if edge.edge_type ≠ et then
          get_neighbors_go s edge_type rest
        else
          match hmGet s.nodes edge.to_node with
          | some node => (edge, node) :: get_neighbors_go s edge_type rest
          | none => get_neighbors_go s edge_type rest
      | none =>
        match hmGet s.nodes edge.to_node with
        | some node => (edge, node) :: get_neighbors_go s edge_type rest
        | none => get_neighbors_go s edge_type rest

/-- `get_neighbors` (mod.rs). -/
def get_neighbors (s : InMemoryGraphStore) (node_id : Nat)
    (edge_type : Option String) : Except EngineError (List (Edge × Node)) :=
  .ok (get_neighbors_go s edge_type (hmGetList s.adjacency_out node_id))

/-- Loop body of `get_neighbors_incoming` (mod.rs): same walk over the
incoming list, resolving the source endpoint. -/
def get_neighbors_incoming_go (s : InMemoryGraphStore) (edge_type : Option String) :
    List Nat → List (Edge × Node)
  | [] => []
  | edge_id :: rest =>
    match hmGet s.edges edge_id with
    | none => get_neighbors_incoming_go s edge_type rest
    | some edge =>
      match edge_type with
      | some et =>
        if edge.edge_type ≠ et then
          get_neighbors_incoming_go s edge_type rest
        else
          match hmGet s.nodes edge.from_node with
          | some node => (edge, node) :: get_neighbors_incoming_go s edge_type rest
          | none => get_neighbors_incoming_go s edge_type rest
      | none =>
        match hmGet s.nodes edge.from_node with
        | some node => (edge, node) :: get_neighbors_incoming_go s edge_type rest
        | none => get_neighbors_incoming_go s edge_type rest

/-- `get_neighbors_incoming` (mod.rs). -/
def get_neighbors_incoming (s : InMemoryGraphStore) (node_id : Nat)
    (edge_type : Option String) : Except EngineError (List (Edge × Node)) :=
  .ok (get_neighbors_incoming_go s edge_type (hmGetList s.adjacency_in node_id))

/-- Straight-line body of `add_node` (mod.rs): take the next id, bump the
counter (a `u64` increment, hence modulo `2^64`), store the node and append
the id under each label of the list. -/
def addNodeCore (s : InMemoryGraphStore) (labels : List String)
    (properties : List (String × Value)) : Nat × InMemoryGraphStore :=
  let id := s.next_node_id
  let node : Node := ⟨id, labels, properties⟩
  (id, { s with
          next_node_id := (s.next_node_id + 1) % 2 ^ 64,
          nodes := hmInsert s.nodes id node,
          label_index := labels.foldl (fun li label => hmPush li label id) s.label_index })

/-- `add_node` (mod.rs): the body has no fallible step, so it always ends in
`Ok(id)`. -/
def add_node (s : InMemoryGraphStore) (labels : List String)
    (properties : List (String × Value)) :
    Except EngineError (Nat × InMemoryGraphStore) :=
  .ok (addNodeCore s labels properties)

/-- Straight-line body of `add_edge` (mod.rs): take the next id, bump the
counter, store the edge and append the id to both adjacency lists,
unconditionally (no endpoint existence check). -/
def addEdgeCore (s : InMemoryGraphStore) (from_id to_id : Nat)
    (edge_type : String) (properties : List (String × Value)) :
    Nat × InMemoryGraphStore :=
  let id := s.next_edge_id
  let edge : Edge := ⟨id, from_id, to_id, edge_type, properties⟩
  (id, { s with
          next_edge_id := (s.next_edge_id + 1) % 2 ^ 64,
          edges := hmInsert s.edges id edge,
          adjacency_out := hmPush s.adjacency_out from_id id,
          adjacency_in := hmPush s.adjacency_in to_id id })

/-- `add_edge` (mod.rs): the body has no fallible step, so it always ends in
`Ok(id)`. -/
def add_edge (s : InMemoryGraphStore) (from_id to_id : Nat)
    (edge_type : String) (properties : List (String × Value)) :
    Except EngineError (Nat × InMemoryGraphStore) :=
  .ok (addEdgeCore s from_id to_id edge_type properties)

/-- `WalRecord` (persistence.rs). -/
inductive WalRecord where
  | AddNode (id : Nat) (labels : List String)
      (properties : List (String × Value)) : WalRecord
  | AddEdge (id : Nat) (from_node : Nat) (to_node : Nat) (edge_type : String)
      (properties : List (String × Value)) : WalRecord

/-- `serialize_props` (persistence.rs): JSON object of the property map,
each value through its JSON projection. -/
def serialize_props (props : List (String × Value)) : Json :=
  Json.obj (props.map (fun kv => (kv.1, kv.2.to_json)))

/-- Map-building loop of `deserialize_props` (persistence.rs): values whose
reconstruction fails are silently dropped. -/
def deserialize_props_core (j : Json) : List (String × Value) :=
  match j.as_object with
  | some fields =>
      fields.foldl
        (fun props kv =>
          match Value.from_json kv.2 with
          | some val => hmInsert props kv.1 val
          | none => props)
        []
  | none => []

/-- `deserialize_props` (persistence.rs): the body has no fallible step
(non-objects yield an empty map), so it always ends in `Ok(props)`. -/
def deserialize_props (j : Json) : Except EngineError (List (String × Value)) :=
  .ok (deserialize_props_core j)

/-- `WalRecord::to_bytes` (persistence.rs): build the tagged JSON document
and serialize it. -/
def WalRecord.to_bytes : WalRecord → Bytes
  | .AddNode id labels properties =>
      Bytes.json (Json.obj
        [(("type"), Json.str ("add_node")),
         (("id"), Json.num id),
         (("labels"), Json.arr (labels.map Json.str)),
         (("properties"), serialize_props properties)])
  | .AddEdge id from_node to_node edge_type properties =>
      Bytes.json (Json.obj
        [(("type"), Json.str ("add_edge")),
         (("id"), Json.num id),
         (("from"), Json.num from_node),
         (("to"), Json.num to_node),
         (("edge_type"), Json.str edge_type),
         (("properties"), serialize_props properties)])

/-- `WalRecord::from_bytes` (persistence.rs): parse, read the discriminant,
then read the per-variant fields with zero/empty defaults. -/
def WalRecord.from_bytes : Bytes → Except EngineError WalRecord
  | Bytes.malformed => .error (EngineError.storageIoErr ("WAL record parse"))
  | Bytes.json j =>
    match (j.index ("type")).as_str with
    | none => .error (EngineError.storageIoErr ("missing type"))
    | some rec_type =>
      if rec_type = ("add_node") then
        let id := ((j.index ("id")).as_u64).getD 0
        let labels := ((j.index ("labels")).as_string_list).getD []
        match deserialize_props (j.index ("properties")) with
        | .ok properties => .ok (WalRecord.AddNode id labels properties)
        | .error e => .error e
      else if rec_type = ("add_edge") then
        let id := ((j.index ("id")).as_u64).getD 0
        let from_node := ((j.index ("from")).as_u64).getD 0
        let to_node := ((j.index ("to")).as_u64).getD 0
        let edge_type := ((j.index ("edge_type")).as_str).getD ("")
        match deserialize_props (j.index ("properties")) with
        | .ok properties =>
            .ok (WalRecord.AddEdge id from_node to_node edge_type properties)
        | .error e => .error e
      else
        .error (EngineError.storageIoErr (("unknown WAL record type: ") ++ rec_type))

/-- The per-node JSON object written by `write_nodes_segment`. -/
def nodeJson (n : Node) : Json :=
  Json.obj
    [(("id"), Json.num n.id),
     (("labels"), Json.arr (n.labels.map Json.str)),
     (("properties"), serialize_props n.properties)]

/-- `write_nodes_segment` (persistence.rs), modelled as the JSON document it
serializes and writes; filesystem placement and IO failure are external. -/
def write_nodes_segment (s : InMemoryGraphStore) : Json :=
  let nodes := s.nodes.map Prod.snd
  Json.obj
    [(("count"), Json.num nodes.length),
     (("nodes"), Json.arr (nodes.map nodeJson))]

/-- The per-edge JSON object written by `write_edges_segment`. -/
def edgeJson (e : Edge) : Json :=
  Json.obj
    [(("id"), Json.num e.id),
     (("from"), Json.num e.from_node),
     (("to"), Json.num e.to_node),
     (("type"), Json.str e.edge_type),
     (("properties"), serialize_props e.properties)]

/-- `write_edges_segment` (persistence.rs), modelled as the JSON document it
serializes and writes. -/
def write_edges_segment (s : InMemoryGraphStore) : Json :=
  let edges := s.edges.map Prod.snd
  Json.obj
    [(("count"), Json.num edges.length),
     (("edges"), Json.arr (edges.map edgeJson))]

/-- `flush_to_segments` (persistence.rs): write the two segment documents.
Directory resolution through the catalog collaborator and IO failure are
external to the model. -/
def flush_to_segments (s : InMemoryGraphStore) : Json × Json :=
  (write_nodes_segment s, write_edges_segment s)

/-- Loop body of `load_nodes_segment` (persistence.rs): extract id, labels
and properties of one node object (with zero/empty defaults), insert the
node, rebuild its label-index entries and advance the node counter. -/
def load_nodes_loop (s : InMemoryGraphStore) :
    List Json → Except EngineError InMemoryGraphStore
  | [] => .ok s
  | node_json :: rest =>
    let id := ((node_json.index ("id")).as_u64).getD 0
    let labels := ((node_json.index ("labels")).as_string_list).getD []
    match deserialize_props (node_json.index ("properties")) with
    | .error e => .error e
    | .ok properties =>
      let node : Node := ⟨id, labels, properties⟩
      load_nodes_loop
        { s with
            nodes := hmInsert s.nodes id node,
            label_index := labels.foldl (fun li label => hmPush li label id) s.label_index,
            next_node_id :=
              if s.next_node_id ≤ id then (id + 1) % 2 ^ 64 else s.next_node_id }
        rest

/-- `load_nodes_segment` (persistence.rs): parse the segment document; a
missing or non-array `nodes` field loads nothing. -/
def load_nodes_segment (s : InMemoryGraphStore) (data : Bytes) :
    Except EngineError InMemoryGraphStore :=
  match data with
  | Bytes.malformed => .error (EngineError.storageIoErr ("parse nodes.seg"))
  | Bytes.json j =>
    match (j.index ("nodes")).as_array with
    | some nodes_array => load_nodes_loop s nodes_array
    | none => .ok s

/-- Loop body of `load_edges_segment` (persistence.rs): extract one edge
object, insert the edge, rebuild both adjacency entries and advance the
edge counter. -/
def load_edges_loop (s : InMemoryGraphStore) :
    List Json → Except EngineError InMemoryGraphStore
  | [] => .ok s
  | edge_json :: rest =>
    let id := ((edge_json.index ("id")).as_u64).getD 0
    let from_node := ((edge_json.index ("from")).as_u64).getD 0
    let to_node := ((edge_json.index ("to")).as_u64).getD 0
    let edge_type := ((edge_json.index ("type")).as_str).getD ("")
    match deserialize_props (edge_json.index ("properties")) with
    | .error e => .error e
    | .ok properties =>
      let edge : Edge := ⟨id, from_node, to_node, edge_type, properties⟩
      load_edges_loop
        { s with
            edges := hmInsert s.edges id edge,
            adjacency_out := hmPush s.adjacency_out from_node id,
            adjacency_in := hmPush s.adjacency_in to_node id,
            next_edge_id :=
              if s.next_edge_id ≤ id then (id + 1) % 2 ^ 64 else s.next_edge_id }
        rest

/-- `load_edges_segment` (persistence.rs). -/
def load_edges_segment (s : InMemoryGraphStore) (data : Bytes) :
    Except EngineError InMemoryGraphStore :=
  match data with
  | Bytes.malformed => .error (EngineError.storageIoErr ("parse edges.seg"))
  | Bytes.json j =>
    match (j.index ("edges")).as_array with
    | some edges_array => load_edges_loop s edges_array
    | none => .ok s

/-- `load_from_segments` (persistence.rs): start from an empty store, load
each segment file if it exists (`none` models an absent file). -/
def load_from_segments (nodes_seg edges_seg : Option Bytes) :
    Except EngineError InMemoryGraphStore :=
  match (match nodes_seg with
         | some data => load_nodes_segment InMemoryGraphStore.new data
         | none => .ok InMemoryGraphStore.new) with
  | .error e => .error e
  | .ok store =>
    match edges_seg with
    | some data => load_edges_segment store data
    | none => .ok store

/-- One iteration of the `replay_wal` loop (persistence.rs): insert the
record's entity under its recorded id, append the index entries and advance
the counter to the max. -/
def applyRecord (s : InMemoryGraphStore) : WalRecord → InMemoryGraphStore
  | .AddNode id labels properties =>
      { s with
          nodes := hmInsert s.nodes id ⟨id, labels, properties⟩,
          label_index := labels.foldl (fun li label => hmPush li label id) s.label_index,
          next_node_id :=
            if s.next_node_id ≤ id then (id + 1) % 2 ^ 64 else s.next_node_id }
  | .AddEdge id from_node to_node edge_type properties =>
      { s with
          edges := hmInsert s.edges id ⟨id, from_node, to_node, edge_type, properties⟩,
          adjacency_out := hmPush s.adjacency_out from_node id,
          adjacency_in := hmPush s.adjacency_in to_node id,
          next_edge_id :=
            if s.next_edge_id ≤ id then (id + 1) % 2 ^ 64 else s.next_edge_id }

/-- `replay_wal` (persistence.rs): apply every record in order; no loop
iteration has a fallible step, so the call always ends in `Ok(())`. -/
def replay_wal (s : InMemoryGraphStore) (records : List WalRecord) :
    Except EngineError InMemoryGraphStore :=
  .ok (records.foldl applyRecord s)

/-- A mutation issued through the write contract (`GraphWriteStore`). -/
inductive Mutation where
  | addNodeM (labels : List String) (properties : List (String × Value)) : Mutation
  | addEdgeM (from_node : Nat) (to_node : Nat) (edge_type : String)
      (properties : List (String × Value)) : Mutation

/-- Apply one mutation directly to the store (live insertion path). -/
def applyMut (s : InMemoryGraphStore) : Mutation → InMemoryGraphStore
  | .addNodeM labels properties => (addNodeCore s labels properties).2
  | .addEdgeM f t ty properties => (addEdgeCore s f t ty properties).2

/-- Apply a sequence of mutations directly to the store. -/
def applyMuts (s : InMemoryGraphStore) (ms : List Mutation) : InMemoryGraphStore :=
  ms.foldl applyMut s

/-- The WAL records corresponding to a mutation sequence: each record
carries the id the live insertion assigned to that mutation. -/
def mutRecords (s : InMemoryGraphStore) : List Mutation → List WalRecord
  | [] => []
  | m :: ms =>
    (match m with
     | .addNodeM labels properties => WalRecord.AddNode s.next_node_id labels properties
     | .addEdgeM f t ty properties => WalRecord.AddEdge s.next_edge_id f t ty properties)
      :: mutRecords (applyMut s m) ms

/-- A store built from empty by a sequence of `add_node` calls. -/
def buildNodes (calls : List (List String × List (String × Value))) :
    InMemoryGraphStore :=
  calls.foldl (fun s c => (addNodeCore s c.1 c.2).2) InMemoryGraphStore.new

/-- Label index derived from a node list, in the order the segment loader
rebuilds it. -/
def buildLabelIndex (ns : List Node) : List (String × List Nat) :=
  ns.foldl (fun li n => n.labels.foldl (fun li2 label => hmPush li2 label n.id) li) []

/-- Outgoing adjacency derived from an edge list. -/
def buildAdjOut (es : List Edge) : List (Nat × List Nat) :=
  es.foldl (fun adj e => hmPush adj e.from_node e.id) []

/-- Incoming adjacency derived from an edge list. -/
def buildAdjIn (es : List Edge) : List (Nat × List Nat) :=
  es.foldl (fun adj e => hmPush adj e.to_node e.id) []

/-- Node counter derived from a node list by the loader's
max-counter advance. -/
def nodeCounterOf (ns : List Node) : Nat :=
  ns.foldl (fun c n => if c ≤ n.id then (n.id + 1) % 2 ^ 64 else c) 1

/-- Edge counter derived from an edge list by the loader's
max-counter advance. -/
def edgeCounterOf (es : List Edge) : Nat :=
  es.foldl (fun c e => if c ≤ e.id then (e.id + 1) % 2 ^ 64 else c) 1

/-- A node whose id is a representable `u64` and whose property keys are
distinct (automatic for the Rust `HashMap`-backed record). -/
abbrev WFNode (n : Node) : Prop :=
  n.id < 2 ^ 64 ∧ (n.properties.map Prod.fst).Nodup

/-- An edge whose id and endpoints are representable `u64`s and whose
property keys are distinct. -/
abbrev WFEdge (e : Edge) : Prop :=
  e.id < 2 ^ 64 ∧ e.from_node < 2 ^ 64 ∧ e.to_node < 2 ^ 64 ∧
    (e.properties.map Prod.fst).Nodup

/-- A well-formed store: table keys are the entity ids and are distinct,
entities are representable, and indexes and counters are exactly the ones
derived from the primary tables.  This holds for every store built from
`new` by `add_node`/`add_edge` calls (`WF_applyMut`). -/
abbrev WF (s : InMemoryGraphStore) : Prop :=
  (∀ kv ∈ s.nodes, kv.2.id = kv.1 ∧ WFNode kv.2) ∧
  (∀ kv ∈ s.edges, kv.2.id = kv.1 ∧ WFEdge kv.2) ∧
  (s.nodes.map Prod.fst).Nodup ∧
  (s.edges.map Prod.fst).Nodup ∧
  s.label_index = buildLabelIndex (s.nodes.map Prod.snd) ∧
  s.adjacency_out = buildAdjOut (s.edges.map Prod.snd) ∧
  s.adjacency_in = buildAdjIn (s.edges.map Prod.snd) ∧
  s.next_node_id = nodeCounterOf (s.nodes.map Prod.snd) ∧
  s.next_edge_id = edgeCounterOf (s.edges.map Prod.snd)

/-- Id-counter invariant (spec section 3): each counter strictly exceeds
every id present in its table. -/
def IdInv (s : InMemoryGraphStore) : Prop :=
  (∀ id n, hmGet s.nodes id = some n → id < s.next_node_id) ∧
  (∀ id e, hmGet s.edges id = some e → id < s.next_edge_id)

/-- The edge half of the id-counter invariant, maintained along
`EdgeReach`. -/
def EdgeIdInv (s : InMemoryGraphStore) : Prop :=
  ∀ id e, hmGet s.edges id = some e → id < s.next_edge_id

/-- A replayed record whose edge id is not already present in the edge
table and whose `u64` counter advance `id + 1` does not wrap (`AddNode`
records never touch the edge structures). -/
def freshRecord (s : InMemoryGraphStore) : WalRecord → Prop
  | .AddNode _ _ _ => True
  | .AddEdge id _ _ _ _ => hmGet s.edges id = none ∧ id + 1 < 2 ^ 64

/-- Stores reachable from `new` by live insertions and by replay/load steps
whose edge records use fresh ids, with no `u64` counter wrap: replayed edge
ids are below `2^64 - 1` and `add_edge` happens while the edge counter is
below `2^64 - 1` (the segment-loader loop performs exactly the
`applyRecord` update, see `load_edges_loop_replay`). -/
inductive EdgeReach : InMemoryGraphStore → Prop where
  | base : EdgeReach InMemoryGraphStore.new
  | nodeStep (s : InMemoryGraphStore) (labels : List String)
      (properties : List (String × Value)) :
      EdgeReach s → EdgeReach (addNodeCore s labels properties).2
  | edgeStep (s : InMemoryGraphStore) (f t : Nat) (ty : String)
      (properties : List (String × Value)) :
      EdgeReach s → s.next_edge_id + 1 < 2 ^ 64 →
      EdgeReach (addEdgeCore s f t ty properties).2
  | replayStep (s : InMemoryGraphStore) (r : WalRecord) :
      EdgeReach s → freshRecord s r → EdgeReach (applyRecord s r)

/-- The WAL record whose replay performs the same update as one iteration
of the node-segment loader on the given JSON object. -/
def nodeJsonRecord (j : Json) : WalRecord :=
  WalRecord.AddNode (((j.index ("id")).as_u64).getD 0)
    (((j.index ("labels")).as_string_list).getD [])
    (deserialize_props_core (j.index ("properties")))

/-- The WAL record whose replay performs the same update as one iteration
of the edge-segment loader on the given JSON object. -/
def edgeJsonRecord (j : Json) : WalRecord :=
  WalRecord.AddEdge (((j.index ("id")).as_u64).getD 0)
    (((j.index ("from")).as_u64).getD 0)
    (((j.index ("to")).as_u64).getD 0)
    (((j.index ("type")).as_str).getD (""))
    (deserialize_props_core (j.index ("properties")))

/-- The nodes created by a sequence of `add_node` calls when the first call
is assigned id `next`. -/
def nodesOfCalls (next : Nat) :
    List (List String × List (String × Value)) → List Node
  | [] => []
  | c :: cs => ⟨next, c.1, c.2⟩ :: nodesOfCalls (next + 1) cs

/-- The node created by the `i`-th `add_node` call (0-based) of `calls`. -/
def mkNodeAt (calls : List (List String × List (String × Value))) (i : Nat) :
    Node :=
  ⟨i + 1, (calls.getD i ([], [])).1, (calls.getD i ([], [])).2⟩

/-- Closed form of a label scan over a node list: each node appears once
per occurrence of the label in its label list. -/
def scanClosed (L : String) : List Node → List Node
  | [] => []
  | n :: rest => List.replicate (n.labels.count L) n ++ scanClosed L rest

/-- Closed form of a label-index entry over a node list. -/
def labelIdsOf (L : String) : List Node → List Nat
  | [] => []
  | n :: rest => List.replicate (n.labels.count L) n.id ++ labelIdsOf L rest

theorem hmGet_hmInsert {α β : Type} [DecidableEq α] (m : List (α × β)) (k k' : α) (v : β) :
    hmGet (hmInsert m k v) k' = if k = k' then some v else hmGet m k' := by
  induction m with
  | nil => simp [hmInsert, hmGet]
  | cons kv rest ih =>
    obtain ⟨k0, v0⟩ := kv
    by_cases h : k0 = k
    · subst h
      simp only [hmInsert, if_pos rfl, hmGet]
      by_cases h' : k0 = k' <;> simp [h']
    · simp only [hmInsert, if_neg h, hmGet, ih]
      by_cases h' : k0 = k'
      · subst h'
        simp [Ne.symm h]
      · simp [h']

theorem hmGet_eq_none_iff {α β : Type} [DecidableEq α] (m : List (α × β)) (k : α) :
    hmGet m k = none ↔ ∀ kv ∈ m, kv.1 ≠ k := by
  induction m with
  | nil => simp [hmGet]
  | cons kv rest ih =>
    obtain ⟨k0, v0⟩ := kv
    by_cases h : k0 = k
    · subst h
      simp [hmGet]
    · simp [hmGet, h, ih]

theorem hmInsert_append {α β : Type} [DecidableEq α] (m : List (α × β)) (k : α) (v : β)
    (h : hmGet m k = none) : hmInsert m k v = m ++ [(k, v)] := by
  induction m with
  | nil => simp [hmInsert]
  | cons kv rest ih =>
    obtain ⟨k0, v0⟩ := kv
    simp only [hmGet] at h
    by_cases hk : k0 = k
    · simp [hk] at h
    · simp only [hmInsert, if_neg hk, List.cons_append, List.cons.injEq, true_and]
      exact ih (by simpa [hk] using h)

theorem foldl_hmInsert {α β : Type} [DecidableEq α] (l : List (α × β)) :
    ∀ acc : List (α × β), ((acc ++ l).map Prod.fst).Nodup →
      l.foldl (fun m kv => hmInsert m kv.1 kv.2) acc = acc ++ l := by
  induction l with
  | nil => intro acc _; simp
  | cons kv rest ih =>
    intro acc h
    obtain ⟨k, v⟩ := kv
    have hnotin : k ∉ acc.map Prod.fst := by
      intro hmem
      rw [List.map_append, List.nodup_append] at h
      exact h.2.2 hmem (by simp)
    have hnone : hmGet acc k = none := by
      rw [hmGet_eq_none_iff]
      intro kv' hkv' heq
      exact hnotin (List.mem_map.mpr ⟨kv', hkv', heq⟩)
    have hstep : hmInsert acc k v = acc ++ [(k, v)] := hmInsert_append acc k v hnone
    have h' : (((acc ++ [(k, v)]) ++ rest).map Prod.fst).Nodup := by
      rw [List.append_cons] at h
      exact h
    calc ((k, v) :: rest).foldl (fun m kv => hmInsert m kv.1 kv.2) acc
        = rest.foldl (fun m kv => hmInsert m kv.1 kv.2) (acc ++ [(k, v)]) := by
          simp [List.foldl_cons, hstep]
      _ = (acc ++ [(k, v)]) ++ rest := ih (acc ++ [(k, v)]) h'
      _ = acc ++ (k, v) :: rest := by simp

theorem hmGetList_hmPush {α β : Type} [DecidableEq α] (m : List (α × List β)) (k k' : α) (x : β) :
    hmGetList (hmPush m k x) k' =
      hmGetList m k' ++ (if k = k' then [x] else []) := by
  induction m with
  | nil =>
    by_cases h : k = k' <;> simp [hmPush, hmGetList, hmGet, h]
  | cons kv rest ih =>
    obtain ⟨k0, xs⟩ := kv
    by_cases h : k0 = k
    · subst h
      simp only [hmPush, if_pos rfl, hmGetList, hmGet]
      by_cases h' : k0 = k' <;> simp [h']
    · simp only [hmPush, if_neg h, hmGetList, hmGet] at ih ⊢
      by_cases h' : k0 = k'
      · subst h'
        simp [Ne.symm h]
      · simp [h', ih]

theorem foldl_hmPush_labels {α β : Type} [DecidableEq α] (labels : List α) :
    ∀ (li : List (α × List β)) (L : α) (id : β),
      hmGetList (labels.foldl (fun li2 l => hmPush li2 l id) li) L =
        hmGetList li L ++ List.replicate (labels.count L) id := by
  induction labels with
  | nil => intro li L id; simp
  | cons l rest ih =>
    intro li L id
    simp only [List.foldl_cons, ih, hmGetList_hmPush]
    by_cases h : l = L
    · subst h
      simp only [List.count_cons, if_pos rfl, List.append_assoc]
      simp [List.count_cons, ← List.replicate_succ, List.replicate_succ']
    · simp [List.count_cons, h]

theorem jsonStrings_map_str (labels : List String) :
    jsonStrings (labels.map Json.str) = some labels := by
  induction labels with
  | nil => rfl
  | cons l rest ih => simp [jsonStrings, ih]

theorem serialize_props_eq (props : List (String × Value)) :
    serialize_props props = Json.obj props := by
  have : props.map (fun kv => (kv.1, kv.2.to_json)) = props := by
    induction props with
    | nil => rfl
    | cons kv rest ih => simp [Value.to_json, ih]
  simp [serialize_props, this]

theorem deserialize_props_obj (fields : List (String × Json)) :
    deserialize_props_core (Json.obj fields) =
      fields.foldl (fun props kv => hmInsert props kv.1 kv.2) [] := by
  simp [deserialize_props_core, Json.as_object, Value.from_json]

theorem props_round_trip (props : List (String × Value))
    (h : (props.map Prod.fst).Nodup) :
    deserialize_props_core (serialize_props props) = props := by
  rw [serialize_props_eq, deserialize_props_obj]
  exact foldl_hmInsert props [] (by simpa using h)

/-- A WAL record constructed from valid inputs: ids are `u64` values and
property keys are distinct, both automatic on the Rust side. -/
def WalWellFormed : WalRecord → Prop
  | .AddNode id _ properties =>
      id < 2 ^ 64 ∧ (properties.map Prod.fst).Nodup
  | .AddEdge id from_node to_node _ properties =>
      id < 2 ^ 64 ∧ from_node < 2 ^ 64 ∧ to_node < 2 ^ 64 ∧
        (properties.map Prod.fst).Nodup

/-- C1: for every WAL record constructed from valid inputs,
`from_bytes (to_bytes r)` succeeds and returns a record equal to `r` in all
fields (properties compared through the value model's JSON projection,
which the model identifies with the value itself). -/
theorem wal_record_round_trip (r : WalRecord) (h : WalWellFormed r) :
    WalRecord.from_bytes (WalRecord.to_bytes r) = .ok r := by
  cases r with
  | AddNode id labels properties =>
    obtain ⟨h64, hnd⟩ := h
    have h64' : id < 18446744073709551616 := by simpa using h64
    simp [WalRecord.to_bytes, WalRecord.from_bytes, Json.index, objFind,
      Json.as_str, Json.as_u64, Json.as_string_list, jsonStrings_map_str,
      deserialize_props, props_round_trip properties hnd, h64']
  | AddEdge id from_node to_node edge_type properties =>
    obtain ⟨h64, hf, ht, hnd⟩ := h
    have h64' : id < 18446744073709551616 := by simpa using h64
    have hf' : from_node < 18446744073709551616 := by simpa using hf
    have ht' : to_node < 18446744073709551616 := by simpa using ht
    simp [WalRecord.to_bytes, WalRecord.from_bytes, Json.index, objFind,
      Json.as_str, Json.as_u64, Json.as_string_list,
      deserialize_props, props_round_trip properties hnd, h64', hf', ht']

/-- Witness for C1 at a concrete record. -/
theorem wal_record_round_trip_witness :
    WalWellFormed (WalRecord.AddNode 7 [("Person")]
        [(("name"), Json.str ("ada")), (("age"), Json.num 36)]) ∧
      WalRecord.from_bytes (WalRecord.to_bytes (WalRecord.AddNode 7 [("Person")]
        [(("name"), Json.str ("ada")), (("age"), Json.num 36)])) =
        .ok (WalRecord.AddNode 7 [("Person")]
          [(("name"), Json.str ("ada")), (("age"), Json.num 36)]) :=
  ⟨⟨by decide, by decide⟩,
    wal_record_round_trip _ ⟨by decide, by decide⟩⟩

/-- C7: `from_bytes` is lenient about missing fields — an `add_node`
payload whose `labels` field is absent parses, whatever its other fields
hold, to a record with an empty label list and the extracted id and
properties (first conjunct, e.g. with `id` present); fully missing
per-variant fields default to zero ids, empty strings and empty maps
(second and third conjuncts) — while an unrecognized `type` discriminant,
a payload that is not valid JSON, and a payload without a string
discriminant are parse errors. -/
theorem from_bytes_lenient :
    (∀ j : Json, (j.index ("type")).as_str = some ("add_node") →
        j.index ("labels") = Json.null →
        WalRecord.from_bytes (Bytes.json j) =
          .ok (WalRecord.AddNode (((j.index ("id")).as_u64).getD 0) []
            (deserialize_props_core (j.index ("properties"))))) ∧
    (∀ fields : List (String × Json),
        objFind fields ("type") = Json.str ("add_node") →
        objFind fields ("labels") = Json.null →
        objFind fields ("id") = Json.null →
        objFind fields ("properties") = Json.null →
        WalRecord.from_bytes (Bytes.json (Json.obj fields)) =
          .ok (WalRecord.AddNode 0 [] [])) ∧
    (∀ fields : List (String × Json),
        objFind fields ("type") = Json.str ("add_edge") →
        objFind fields ("id") = Json.null →
        objFind fields ("from") = Json.null →
        objFind fields ("to") = Json.null →
        objFind fields ("edge_type") = Json.null →
        objFind fields ("properties") = Json.null →
        WalRecord.from_bytes (Bytes.json (Json.obj fields)) =
          .ok (WalRecord.AddEdge 0 0 0 ("") [])) ∧
    (∀ (j : Json) (t : String),
        (j.index ("type")).as_str = some t →
        t ≠ ("add_node") → t ≠ ("add_edge") →
        WalRecord.from_bytes (Bytes.json j) =
          .error (EngineError.storageIoErr ((("unknown WAL record type: ") ++ t)))) ∧
    (WalRecord.from_bytes Bytes.malformed =
      .error (EngineError.storageIoErr ("WAL record parse"))) ∧
    (∀ j : Json, (j.index ("type")).as_str = none →
        WalRecord.from_bytes (Bytes.json j) =
          .error (EngineError.storageIoErr ("missing type"))) := by
  refine ⟨?_, ?_, ?_, ?_, rfl, ?_⟩
  · intro j htype hlabels
    simp [WalRecord.from_bytes, htype, hlabels, Json.as_string_list,
      deserialize_props]
  · intro fields htype hlabels hid hprops
    simp [WalRecord.from_bytes, Json.index, htype, hlabels, hid, hprops,
      Json.as_str, Json.as_u64, Json.as_string_list, deserialize_props,
      deserialize_props_core, Json.as_object]
  · intro fields htype hid hfrom hto hty hprops
    simp [WalRecord.from_bytes, Json.index, htype, hid, hfrom, hto, hty, hprops,
      Json.as_str, Json.as_u64, Json.as_string_list, deserialize_props,
      deserialize_props_core, Json.as_object]
  · intro j t htype hn he
    simp [WalRecord.from_bytes, htype, hn, he]
  · intro j htype
    simp [WalRecord.from_bytes, htype]

/-- Witness for C7: a payload missing only `labels` but carrying id 7
parses to id 7 with an empty label list; a payload with only its
discriminant parses with empty defaults; an unknown discriminant is
rejected. -/
theorem from_bytes_lenient_witness :
    WalRecord.from_bytes (Bytes.json (Json.obj
        [(("type"), Json.str ("add_node")), (("id"), Json.num 7)])) =
        .ok (WalRecord.AddNode 7 [] []) ∧
      WalRecord.from_bytes (Bytes.json (Json.obj [(("type"), Json.str ("add_node"))])) =
        .ok (WalRecord.AddNode 0 [] []) ∧
      WalRecord.from_bytes (Bytes.json (Json.obj [(("type"), Json.str ("truncate"))])) =
        .error (EngineError.storageIoErr (("unknown WAL record type: ") ++ ("truncate"))) :=
  ⟨from_bytes_lenient.1 _ rfl rfl,
    from_bytes_lenient.2.1 _ rfl rfl rfl rfl,
    from_bytes_lenient.2.2.2.1 _ _ rfl (by decide) (by decide)⟩

/-- One step of the outgoing-neighbor walk as a partial map. -/
def neighborOutFun (s : InMemoryGraphStore) (ft : Option String) (eid : Nat) :
    Option (Edge × Node) :=
  match hmGet s.edges eid with
  | none => none
  | some edge =>
    match ft with
    | some et =>
      if edge.edge_type ≠ et then none
      else
        match hmGet s.nodes edge.to_node with
        | some node => some (edge, node)
        | none => none
    | none =>
      match hmGet s.nodes edge.to_node with
      | some node => some (edge, node)
      | none => none

/-- One step of the incoming-neighbor walk as a partial map. -/
def neighborInFun (s : InMemoryGraphStore) (ft : Option String) (eid : Nat) :
    Option (Edge × Node) :=
  match hmGet s.edges eid with
  | none => none
  | some edge =>
    match ft with
    | some et =>
      if edge.edge_type ≠ et then none
      else
        match hmGet s.nodes edge.from_node with
        | some node => some (edge, node)
        | none => none
    | none =>
      match hmGet s.nodes edge.from_node with
      | some node => some (edge, node)
      | none => none

theorem get_neighbors_go_eq (s : InMemoryGraphStore) (ft : Option String)
    (ids : List Nat) :
    get_neighbors_go s ft ids = ids.filterMap (neighborOutFun s ft) := by
  induction ids with
  | nil => simp [get_neighbors_go]
  | cons eid rest ih =>
    simp only [get_neighbors_go, List.filterMap_cons]
    cases hedge : hmGet s.edges eid with
    | none => simp [neighborOutFun, hedge, ih]
    | some edge =>
      cases ft with
      | none =>
        cases hnode : hmGet s.nodes edge.to_node <;>
          simp [neighborOutFun, hedge, hnode, ih]
      | some et =>
        by_cases hty : edge.edge_type ≠ et
        · simp [neighborOutFun, hedge, hty, ih]
        · cases hnode : hmGet s.nodes edge.to_node <;>
            simp [neighborOutFun, hedge, hty, hnode, ih]

theorem get_neighbors_incoming_go_eq (s : InMemoryGraphStore) (ft : Option String)
    (ids : List Nat) :
    get_neighbors_incoming_go s ft ids = ids.filterMap (neighborInFun s ft) := by
  induction ids with
  | nil => simp [get_neighbors_incoming_go]
  | cons eid rest ih =>
    simp only [get_neighbors_incoming_go, List.filterMap_cons]
    cases hedge : hmGet s.edges eid with
    | none => simp [neighborInFun, hedge, ih]
    | some edge =>
      cases ft with
      | none =>
        cases hnode : hmGet s.nodes edge.from_node <;>
          simp [neighborInFun, hedge, hnode, ih]
      | some et =>
        by_cases hty : edge.edge_type ≠ et
        · simp [neighborInFun, hedge, hty, ih]
        · cases hnode : hmGet s.nodes edge.from_node <;>
            simp [neighborInFun, hedge, hty, hnode, ih]

theorem neighborOutFun_some (s : InMemoryGraphStore) (ft : Option String)
    (eid : Nat) (e : Edge) (nd : Node) :
    neighborOutFun s ft eid = some (e, nd) ↔
      hmGet s.edges eid = some e ∧ (∀ t, ft = some t → e.edge_type = t) ∧
        hmGet s.nodes e.to_node = some nd := by
  constructor
  · intro h
    cases hedge : hmGet s.edges eid with
    | none => simp [neighborOutFun, hedge] at h
    | some edge =>
      cases ft with
      | none =>
        cases hnode : hmGet s.nodes edge.to_node with
        | none => simp [neighborOutFun, hedge, hnode] at h
        | some node =>
          simp [neighborOutFun, hedge, hnode] at h
          obtain ⟨rfl, rfl⟩ := h
          refine ⟨rfl, ?_, hnode⟩
          intro t ht
          exact absurd ht (by simp)
      | some et =>
        by_cases hty : edge.edge_type ≠ et
        · simp [neighborOutFun, hedge, hty] at h
        · cases hnode : hmGet s.nodes edge.to_node with
          | none => simp [neighborOutFun, hedge, hty, hnode] at h
          | some node =>
            simp [neighborOutFun, hedge, hty, hnode] at h
            obtain ⟨rfl, rfl⟩ := h
            refine ⟨rfl, fun t ht => ?_, hnode⟩
            obtain rfl : et = t := by simpa using ht
            exact not_not.mp hty
  · rintro ⟨hedge, hft, hnode⟩
    cases ft with
    | none => simp [neighborOutFun, hedge, hnode]
    | some et => simp [neighborOutFun, hedge, hnode, hft et rfl]

theorem neighborInFun_some (s : InMemoryGraphStore) (ft : Option String)
    (eid : Nat) (e : Edge) (nd : Node) :
    neighborInFun s ft eid = some (e, nd) ↔
      hmGet s.edges eid = some e ∧ (∀ t, ft = some t → e.edge_type = t) ∧
        hmGet s.nodes e.from_node = some nd := by
  constructor
  · intro h
    cases hedge : hmGet s.edges eid with
    | none => simp [neighborInFun, hedge] at h
    | some edge =>
      cases ft with
      | none =>
        cases hnode : hmGet s.nodes edge.from_node with
        | none => simp [neighborInFun, hedge, hnode] at h
        | some node =>
          simp [neighborInFun, hedge, hnode] at h
          obtain ⟨rfl, rfl⟩ := h
          refine ⟨rfl, ?_, hnode⟩
          intro t ht
          exact absurd ht (by simp)
      | some et =>
        by_cases hty : edge.edge_type ≠ et
        · simp [neighborInFun, hedge, hty] at h
        · cases hnode : hmGet s.nodes edge.from_node with
          | none => simp [neighborInFun, hedge, hty, hnode] at h
          | some node =>
            simp [neighborInFun, hedge, hty, hnode] at h
            obtain ⟨rfl, rfl⟩ := h
            refine ⟨rfl, fun t ht => ?_, hnode⟩
            obtain rfl : et = t := by simpa using ht
            exact not_not.mp hty
  · rintro ⟨hedge, hft, hnode⟩
    cases ft with
    | none => simp [neighborInFun, hedge, hnode]
    | some et => simp [neighborInFun, hedge, hnode, hft et rfl]

/-- C8: `get_neighbors` returns exactly the (edge, destination) pairs of the
edges listed in `adjacency_out[node_id]` that resolve in the edge table,
match the optional type filter, and whose destination resolves in the node
table — dangling destinations are omitted, not errors; symmetrically,
`get_neighbors_incoming` resolves sources over `adjacency_in`. -/
theorem get_neighbors_spec (s : InMemoryGraphStore) (node_id : Nat)
    (ft : Option String) (e : Edge) (nd : Node) :
    (∃ res, get_neighbors s node_id ft = .ok res ∧
      ((e, nd) ∈ res ↔ ∃ eid ∈ hmGetList s.adjacency_out node_id,
        hmGet s.edges eid = some e ∧ (∀ t, ft = some t → e.edge_type = t) ∧
          hmGet s.nodes e.to_node = some nd)) ∧
    (∃ res, get_neighbors_incoming s node_id ft = .ok res ∧
      ((e, nd) ∈ res ↔ ∃ eid ∈ hmGetList s.adjacency_in node_id,
        hmGet s.edges eid = some e ∧ (∀ t, ft = some t → e.edge_type = t) ∧
          hmGet s.nodes e.from_node = some nd)) := by
  constructor
  · refine ⟨_, rfl, ?_⟩
    rw [get_neighbors_go_eq, List.mem_filterMap]
    exact exists_congr fun eid =>
      and_congr Iff.rfl (neighborOutFun_some s ft eid e nd)
  · refine ⟨_, rfl, ?_⟩
    rw [get_neighbors_incoming_go_eq, List.mem_filterMap]
    exact exists_congr fun eid =>
      and_congr Iff.rfl (neighborInFun_some s ft eid e nd)

/-- C9: `add_edge` succeeds with a fresh id in every store for arbitrary
endpoint ids, existing or not; the edge is stored under that id and the id
is appended to both adjacency lists; and when the destination id resolves
to no node, a subsequent `get_neighbors` on the source omits the edge. -/
theorem add_edge_dangling (s : InMemoryGraphStore) (from_id to_id : Nat)
    (ty : String) (props : List (String × Value)) :
    ∃ id s', add_edge s from_id to_id ty props = .ok (id, s') ∧
      hmGet s'.edges id = some ⟨id, from_id, to_id, ty, props⟩ ∧
      hmGetList s'.adjacency_out from_id =
        hmGetList s.adjacency_out from_id ++ [id] ∧
      hmGetList s'.adjacency_in to_id =
        hmGetList s.adjacency_in to_id ++ [id] ∧
      (hmGet s.nodes to_id = none →
        ∀ ft res, get_neighbors s' from_id ft = .ok res →
          ∀ nd : Node, (⟨id, from_id, to_id, ty, props⟩, nd) ∉ res) := by
  refine ⟨s.next_edge_id, (addEdgeCore s from_id to_id ty props).2, rfl, ?_, ?_, ?_, ?_⟩
  · simp [addEdgeCore, hmGet_hmInsert]
  · simp [addEdgeCore, hmGetList_hmPush]
  · simp [addEdgeCore, hmGetList_hmPush]
  · intro h ft res hres nd hmem
    have hres' : res = get_neighbors_go (addEdgeCore s from_id to_id ty props).2 ft
        (hmGetList (addEdgeCore s from_id to_id ty props).2.adjacency_out from_id) := by
      simpa [get_neighbors] using hres.symm
    rw [hres', get_neighbors_go_eq, List.mem_filterMap] at hmem
    obtain ⟨eid, _, hfun⟩ := hmem
    rw [neighborOutFun_some] at hfun
    have hto : hmGet (addEdgeCore s from_id to_id ty props).2.nodes to_id = none := by
      simpa [addEdgeCore] using h
    exact absurd hfun.2.2 (by simp [hto])

/-- Witness for C9: adding an edge from node 1 to the missing node 2 in
the empty store; the inner omission implication fires because node 2 is
absent there. -/
theorem add_edge_dangling_witness :
    ∃ id s', add_edge InMemoryGraphStore.new 1 2 ("KNOWS") [] = .ok (id, s') ∧
      hmGet s'.edges id = some ⟨id, 1, 2, ("KNOWS"), []⟩ ∧
      hmGetList s'.adjacency_out 1 =
        hmGetList InMemoryGraphStore.new.adjacency_out 1 ++ [id] ∧
      hmGetList s'.adjacency_in 2 =
        hmGetList InMemoryGraphStore.new.adjacency_in 2 ++ [id] ∧
      (hmGet InMemoryGraphStore.new.nodes 2 = none →
        ∀ ft res, get_neighbors s' 1 ft = .ok res →
          ∀ nd : Node, (⟨id, 1, 2, ("KNOWS"), []⟩, nd) ∉ res) :=
  add_edge_dangling InMemoryGraphStore.new 1 2 ("KNOWS") []

theorem load_nodes_loop_replay (js : List Json) : ∀ s : InMemoryGraphStore,
    load_nodes_loop s js = replay_wal s (js.map nodeJsonRecord) := by
  induction js with
  | nil => intro s; rfl
  | cons j rest ih =>
    intro s
    simp only [load_nodes_loop, deserialize_props]
    rw [ih]
    rfl

theorem load_edges_loop_replay (js : List Json) : ∀ s : InMemoryGraphStore,
    load_edges_loop s js = replay_wal s (js.map edgeJsonRecord) := by
  induction js with
  | nil => intro s; rfl
  | cons j rest ih =>
    intro s
    simp only [load_edges_loop, deserialize_props]
    rw [ih]
    rfl

theorem IdInv_new : IdInv InMemoryGraphStore.new := by
  constructor
  · intro id n h
    simp [InMemoryGraphStore.new, hmGet] at h
  · intro id e h
    simp [InMemoryGraphStore.new, hmGet] at h

/-- The id of a WAL record fits a `u64` with room for the `id + 1` counter
advance, i.e. the advance does not wrap.  Automatic in Rust for every id
except `u64::MAX`. -/
def recordIdBound : WalRecord → Prop
  | .AddNode id _ _ => id + 1 < 2 ^ 64
  | .AddEdge id _ _ _ _ => id + 1 < 2 ^ 64

/-- The records the node-segment loader extracts from a byte payload. -/
def nodeSegRecords : Bytes → List WalRecord
  | Bytes.json j =>
    match (j.index ("nodes")).as_array with
    | some arr => arr.map nodeJsonRecord
    | none => []
  | Bytes.malformed => []

/-- The records the edge-segment loader extracts from a byte payload. -/
def edgeSegRecords : Bytes → List WalRecord
  | Bytes.json j =>
    match (j.index ("edges")).as_array with
    | some arr => arr.map edgeJsonRecord
    | none => []
  | Bytes.malformed => []

/-- All records a `load_from_segments` call extracts from its two optional
segment files. -/
def segmentRecords (nodes_seg edges_seg : Option Bytes) : List WalRecord :=
  (match nodes_seg with
   | some b => nodeSegRecords b
   | none => []) ++
  (match edges_seg with
   | some b => edgeSegRecords b
   | none => [])

theorem IdInv_applyRecord (s : InMemoryGraphStore) (r : WalRecord)
    (hb : recordIdBound r) (h : IdInv s) : IdInv (applyRecord s r) := by
  obtain ⟨hn, he⟩ := h
  cases r with
  | AddNode id labels props =>
    have hb' : id + 1 < 2 ^ 64 := hb
    constructor
    · intro k n hk
      have hk' : (if id = k then some (⟨id, labels, props⟩ : Node)
          else hmGet s.nodes k) = some n := by
        simpa [applyRecord, hmGet_hmInsert] using hk
      simp only [applyRecord]
      rw [Nat.mod_eq_of_lt hb']
      by_cases hik : id = k
      · split <;> omega
      · rw [if_neg hik] at hk'
        have := hn k n hk'
        split <;> omega
    · intro k e hk
      have hk' : hmGet s.edges k = some e := by
        simpa [applyRecord] using hk
      simpa [applyRecord] using he k e hk'
  | AddEdge id f t ty props =>
    have hb' : id + 1 < 2 ^ 64 := hb
    constructor
    · intro k n hk
      have hk' : hmGet s.nodes k = some n := by
        simpa [applyRecord] using hk
      simpa [applyRecord] using hn k n hk'
    · intro k e hk
      have hk' : (if id = k then some (⟨id, f, t, ty, props⟩ : Edge)
          else hmGet s.edges k) = some e := by
        simpa [applyRecord, hmGet_hmInsert] using hk
      simp only [applyRecord]
      rw [Nat.mod_eq_of_lt hb']
      by_cases hik : id = k
      · split <;> omega
      · rw [if_neg hik] at hk'
        have := he k e hk'
        split <;> omega

theorem IdInv_foldl (rs : List WalRecord) : ∀ s : InMemoryGraphStore,
    IdInv s → (∀ r ∈ rs, recordIdBound r) → IdInv (rs.foldl applyRecord s) := by
  induction rs with
  | nil => exact fun s h _ => h
  | cons r rest ih =>
    intro s h hb
    exact ih _ (IdInv_applyRecord s r (hb r (List.mem_cons_self r rest)) h)
      (fun r' hr' => hb r' (List.mem_cons_of_mem r hr'))

theorem IdInv_load_nodes_segment (s s' : InMemoryGraphStore) (b : Bytes)
    (hs : IdInv s) (hb : ∀ r ∈ nodeSegRecords b, recordIdBound r)
    (h : load_nodes_segment s b = .ok s') : IdInv s' := by
  cases b with
  | malformed => exact absurd h (by simp [load_nodes_segment])
  | json j =>
    simp only [load_nodes_segment] at h
    cases harr : (j.index ("nodes")).as_array with
    | none =>
      rw [harr] at h
      obtain rfl : s = s' := by simpa using h
      exact hs
    | some arr =>
      have hb' : ∀ r ∈ arr.map nodeJsonRecord, recordIdBound r := by
        simpa [nodeSegRecords, harr] using hb
      rw [harr] at h
      have h' : load_nodes_loop s arr = Except.ok s' := h
      rw [load_nodes_loop_replay] at h'
      obtain rfl : (arr.map nodeJsonRecord).foldl applyRecord s = s' := by
        simpa [replay_wal] using h'
      exact IdInv_foldl _ s hs hb'

theorem IdInv_load_edges_segment (s s' : InMemoryGraphStore) (b : Bytes)
    (hs : IdInv s) (hb : ∀ r ∈ edgeSegRecords b, recordIdBound r)
    (h : load_edges_segment s b = .ok s') : IdInv s' := by
  cases b with
  | malformed => exact absurd h (by simp [load_edges_segment])
  | json j =>
    simp only [load_edges_segment] at h
    cases harr : (j.index ("edges")).as_array with
    | none =>
      rw [harr] at h
      obtain rfl : s = s' := by simpa using h
      exact hs
    | some arr =>
      have hb' : ∀ r ∈ arr.map edgeJsonRecord, recordIdBound r := by
        simpa [edgeSegRecords, harr] using hb
      rw [harr] at h
      have h' : load_edges_loop s arr = Except.ok s' := h
      rw [load_edges_loop_replay] at h'
      obtain rfl : (arr.map edgeJsonRecord).foldl applyRecord s = s' := by
        simpa [replay_wal] using h'
      exact IdInv_foldl _ s hs hb'

theorem IdInv_addNodeCore (s : InMemoryGraphStore) (labels : List String)
    (props : List (String × Value)) (hb : s.next_node_id + 1 < 2 ^ 64)
    (h : IdInv s) : IdInv (addNodeCore s labels props).2 := by
  obtain ⟨hn, he⟩ := h
  constructor
  · intro k n hk
    have hk' : (if s.next_node_id = k then some (⟨s.next_node_id, labels, props⟩ : Node)
        else hmGet s.nodes k) = some n := by
      simpa [addNodeCore, hmGet_hmInsert] using hk
    simp only [addNodeCore]
    rw [Nat.mod_eq_of_lt hb]
    by_cases hik : s.next_node_id = k
    · omega
    · rw [if_neg hik] at hk'
      have := hn k n hk'
      omega
  · intro k e hk
    have hk' : hmGet s.edges k = some e := by
      simpa [addNodeCore] using hk
    simpa [addNodeCore] using he k e hk'

theorem IdInv_addEdgeCore (s : InMemoryGraphStore) (f t : Nat) (ty : String)
    (props : List (String × Value)) (hb : s.next_edge_id + 1 < 2 ^ 64)
    (h : IdInv s) : IdInv (addEdgeCore s f t ty props).2 := by
  obtain ⟨hn, he⟩ := h
  constructor
  · intro k n hk
    have hk' : hmGet s.nodes k = some n := by
      simpa [addEdgeCore] using hk
    simpa [addEdgeCore] using hn k n hk'
  · intro k e hk
    have hk' : (if s.next_edge_id = k then some (⟨s.next_edge_id, f, t, ty, props⟩ : Edge)
        else hmGet s.edges k) = some e := by
      simpa [addEdgeCore, hmGet_hmInsert] using hk
    simp only [addEdgeCore]
    rw [Nat.mod_eq_of_lt hb]
    by_cases hik : s.next_edge_id = k
    · omega
    · rw [if_neg hik] at hk'
      have := he k e hk'
      omega

theorem IdInv_load_from_segments (ns es : Option Bytes) (s' : InMemoryGraphStore)
    (hb : ∀ r ∈ segmentRecords ns es, recordIdBound r)
    (h : load_from_segments ns es = .ok s') : IdInv s' := by
  have hbN : ∀ b, ns = some b → ∀ r ∈ nodeSegRecords b, recordIdBound r := by
    intro b hns r hr
    refine hb r ?_
    rw [hns]
    exact List.mem_append.mpr (Or.inl hr)
  have hbE : ∀ b, es = some b → ∀ r ∈ edgeSegRecords b, recordIdBound r := by
    intro b hes r hr
    refine hb r ?_
    rw [hes]
    exact List.mem_append.mpr (Or.inr hr)
  simp only [load_from_segments] at h
  have step1 : ∀ s1, (match ns with
      | some data => load_nodes_segment InMemoryGraphStore.new data
      | none => Except.ok InMemoryGraphStore.new) = .ok s1 → IdInv s1 := by
    intro s1 h1
    cases hns : ns with
    | none =>
      rw [hns] at h1
      obtain rfl : InMemoryGraphStore.new = s1 := by simpa using h1
      exact IdInv_new
    | some data =>
      rw [hns] at h1
      exact IdInv_load_nodes_segment _ _ data IdInv_new (hbN data hns) h1
  cases hmid : (match ns with
      | some data => load_nodes_segment InMemoryGraphStore.new data
      | none => Except.ok InMemoryGraphStore.new) with
  | error e => rw [hmid] at h; exact absurd h (by simp)
  | ok s1 =>
    rw [hmid] at h
    have hs1 : IdInv s1 := step1 s1 hmid
    cases hes : es with
    | none =>
      rw [hes] at h
      obtain rfl : s1 = s' := by simpa using h
      exact hs1
    | some data =>
      rw [hes] at h
      exact IdInv_load_edges_segment s1 s' data hs1 (hbE data hes) h

/-- C4 (amended): as long as the `u64` counter advance `id + 1` does not
wrap — the counter is below `2^64 - 1` on the insertion paths, and every
loaded or replayed record id is below `2^64 - 1` — the id counters strictly
exceed every id in their tables after every insertion, every segment load
(established afresh from empty), and every WAL replay, and each path
advances the counter to `max(counter, id + 1)`.  At id `2^64 - 1` the
source's `u64` addition wraps the counter to zero and the invariant fails
(`id_counters_exceed_ids_cex`). -/
theorem id_counters_exceed_ids :
    (∀ (s : InMemoryGraphStore) labels props, IdInv s →
      s.next_node_id + 1 < 2 ^ 64 → IdInv (addNodeCore s labels props).2) ∧
    (∀ (s : InMemoryGraphStore) labels props, s.next_node_id + 1 < 2 ^ 64 →
      (addNodeCore s labels props).2.next_node_id =
        max s.next_node_id ((addNodeCore s labels props).1 + 1)) ∧
    (∀ (s : InMemoryGraphStore) f t ty props, IdInv s →
      s.next_edge_id + 1 < 2 ^ 64 → IdInv (addEdgeCore s f t ty props).2) ∧
    (∀ (s : InMemoryGraphStore) f t ty props, s.next_edge_id + 1 < 2 ^ 64 →
      (addEdgeCore s f t ty props).2.next_edge_id =
        max s.next_edge_id ((addEdgeCore s f t ty props).1 + 1)) ∧
    (∀ ns es (s' : InMemoryGraphStore),
      (∀ r ∈ segmentRecords ns es, recordIdBound r) →
      load_from_segments ns es = .ok s' → IdInv s') ∧
    (∀ (s : InMemoryGraphStore) rs s', IdInv s →
      (∀ r ∈ rs, recordIdBound r) → replay_wal s rs = .ok s' → IdInv s') ∧
    (∀ (s : InMemoryGraphStore) id labels props, id + 1 < 2 ^ 64 →
      (applyRecord s (WalRecord.AddNode id labels props)).next_node_id =
        max s.next_node_id (id + 1)) ∧
    (∀ (s : InMemoryGraphStore) id f t ty props, id + 1 < 2 ^ 64 →
      (applyRecord s (WalRecord.AddEdge id f t ty props)).next_edge_id =
        max s.next_edge_id (id + 1)) := by
  refine ⟨fun s labels props h hb => IdInv_addNodeCore s labels props hb h,
    ?_, fun s f t ty props h hb => IdInv_addEdgeCore s f t ty props hb h,
    ?_, IdInv_load_from_segments, ?_, ?_, ?_⟩
  · intro s labels props hb
    simp only [addNodeCore]
    rw [Nat.mod_eq_of_lt hb]
    omega
  · intro s f t ty props hb
    simp only [addEdgeCore]
    rw [Nat.mod_eq_of_lt hb]
    omega
  · intro s rs s' hs hb h
    obtain rfl : rs.foldl applyRecord s = s' := by simpa [replay_wal] using h
    exact IdInv_foldl rs s hs hb
  · intro s id labels props hb
    simp only [applyRecord]
    rw [Nat.mod_eq_of_lt hb]
    split <;> omega
  · intro s id f t ty props hb
    simp only [applyRecord]
    rw [Nat.mod_eq_of_lt hb]
    split <;> omega

/-- Counterexample to C4 as stated: replaying the representable id
`2^64 - 1` (reachable through `as_u64`) makes the counter advance `id + 1`
wrap to zero exactly as the source's `u64` addition does, so afterwards
`next_node_id` no longer exceeds the stored node id and the claimed
`max(counter, id + 1)` equation fails. -/
theorem id_counters_exceed_ids_cex :
    ∃ s', replay_wal InMemoryGraphStore.new
        [WalRecord.AddNode 18446744073709551615 [] []] = .ok s' ∧
      hmGet s'.nodes 18446744073709551615 =
        some ⟨18446744073709551615, [], []⟩ ∧
      s'.next_node_id = 0 :=
  ⟨_, rfl, rfl, rfl⟩

/-- Witness for C4: invariant preservation at a concrete insertion, and the
max-advance equation at a concrete replayed id, bounds discharged. -/
theorem id_counters_exceed_ids_witness :
    IdInv (addNodeCore InMemoryGraphStore.new [("A")] []).2 ∧
      (applyRecord InMemoryGraphStore.new
        (WalRecord.AddNode 5 [] [])).next_node_id = max 1 (5 + 1) := by
  obtain ⟨h1, _, _, _, _, _, h7, _⟩ := id_counters_exceed_ids
  exact ⟨h1 InMemoryGraphStore.new [("A")] [] IdInv_new (by decide),
    h7 InMemoryGraphStore.new 5 [] [] (by decide)⟩

theorem hmGet_hmPush_isSome {α β : Type} [DecidableEq α]
    (m : List (α × List β)) (k' : α) (x : β) (k : α) (xs : List β)
    (h : hmGet m k = some xs) : ∃ ys, hmGet (hmPush m k' x) k = some ys := by
  induction m with
  | nil => simp [hmGet] at h
  | cons kv rest ih =>
    obtain ⟨k0, zs⟩ := kv
    by_cases h0 : k0 = k'
    · subst h0
      simp only [hmPush, if_pos rfl, hmGet]
      by_cases hk : k0 = k
      · exact ⟨zs ++ [x], by simp [hk]⟩
      · simp only [hmGet, if_neg hk] at h
        exact ⟨xs, by simp [hk, h]⟩
    · simp only [hmPush, if_neg h0, hmGet] at h ⊢
      by_cases hk : k0 = k
      · exact ⟨zs, by simp [hk]⟩
      · simp only [if_neg hk] at h ⊢
        exact ih h

theorem hmGet_foldl_push_isSome {α β : Type} [DecidableEq α] (labels : List α) :
    ∀ (li : List (α × List β)) (L : α) (id : β) (ids : List β),
      hmGet li L = some ids →
      ∃ ids2, hmGet (labels.foldl (fun a l => hmPush a l id) li) L = some ids2 := by
  induction labels with
  | nil => exact fun li L id ids h => ⟨ids, h⟩
  | cons l rest ih =>
    intro li L id ids h
    obtain ⟨ys, hy⟩ := hmGet_hmPush_isSome li l id L ids h
    exact ih _ _ _ _ hy

theorem foldl_push_extends {α β : Type} [DecidableEq α] (labels : List α)
    (li : List (α × List β)) (L : α) (id : β) (ids : List β)
    (h : hmGet li L = some ids) :
    ∃ ids2, hmGet (labels.foldl (fun a l => hmPush a l id) li) L = some ids2 ∧
      ∃ tail, ids2 = ids ++ tail := by
  obtain ⟨ids2, h2⟩ := hmGet_foldl_push_isSome labels li L id ids h
  refine ⟨ids2, h2, List.replicate (labels.count L) id, ?_⟩
  have hlist := foldl_hmPush_labels labels li L id
  simp only [hmGetList, h, h2, Option.getD_some] at hlist
  exact hlist

/-- C10: `replay_wal` is infallible — it accepts any record sequence,
including colliding, out-of-order or zero ids, and processes records one at
a time — and an id collision overwrites the entity in the primary table
while every pre-existing label/adjacency index entry list is preserved as a
prefix of the new one. -/
theorem replay_wal_infallible :
    (∀ (s : InMemoryGraphStore) rs, ∃ s', replay_wal s rs = .ok s') ∧
    (∀ (s : InMemoryGraphStore) r rs,
      replay_wal s (r :: rs) = replay_wal (applyRecord s r) rs) ∧
    (∀ (s : InMemoryGraphStore) id labels props, ∃ s',
      replay_wal s [WalRecord.AddNode id labels props] = .ok s' ∧
      hmGet s'.nodes id = some ⟨id, labels, props⟩ ∧
      (∀ L ids, hmGet s.label_index L = some ids →
        ∃ ids2, hmGet s'.label_index L = some ids2 ∧ ∃ tail, ids2 = ids ++ tail)) ∧
    (∀ (s : InMemoryGraphStore) id f t ty props, ∃ s',
      replay_wal s [WalRecord.AddEdge id f t ty props] = .ok s' ∧
      hmGet s'.edges id = some ⟨id, f, t, ty, props⟩ ∧
      (∀ k ids, hmGet s.adjacency_out k = some ids →
        ∃ ids2, hmGet s'.adjacency_out k = some ids2 ∧ ∃ tail, ids2 = ids ++ tail) ∧
      (∀ k ids, hmGet s.adjacency_in k = some ids →
        ∃ ids2, hmGet s'.adjacency_in k = some ids2 ∧ ∃ tail, ids2 = ids ++ tail)) := by
  refine ⟨fun s rs => ⟨rs.foldl applyRecord s, rfl⟩, fun s r rs => rfl, ?_, ?_⟩
  · intro s id labels props
    refine ⟨applyRecord s (WalRecord.AddNode id labels props), rfl, ?_, ?_⟩
    · simp [applyRecord, hmGet_hmInsert]
    · intro L ids hL
      have : (applyRecord s (WalRecord.AddNode id labels props)).label_index =
          labels.foldl (fun a l => hmPush a l id) s.label_index := rfl
      rw [this]
      exact foldl_push_extends labels s.label_index L id ids hL
  · intro s id f t ty props
    refine ⟨applyRecord s (WalRecord.AddEdge id f t ty props), rfl, ?_, ?_, ?_⟩
    · simp [applyRecord, hmGet_hmInsert]
    · intro k ids hk
      have : (applyRecord s (WalRecord.AddEdge id f t ty props)).adjacency_out =
          [f].foldl (fun a l => hmPush a l id) s.adjacency_out := rfl
      rw [this]
      exact foldl_push_extends [f] s.adjacency_out k id ids hk
    · intro k ids hk
      have : (applyRecord s (WalRecord.AddEdge id f t ty props)).adjacency_in =
          [t].foldl (fun a l => hmPush a l id) s.adjacency_in := rfl
      rw [this]
      exact foldl_push_extends [t] s.adjacency_in k id ids hk

/-- Witness for C10: replaying a colliding node id 1 over a store that
already holds node 1 overwrites the node while the old label entry for
`A` survives as a prefix. -/
theorem replay_wal_infallible_witness :
    ∃ s', replay_wal (applyRecord InMemoryGraphStore.new
        (WalRecord.AddNode 1 [("A")] [])) [WalRecord.AddNode 1 [("B")] []] = .ok s' ∧
      hmGet s'.nodes 1 = some ⟨1, [("B")], []⟩ ∧
      (∀ L ids, hmGet (applyRecord InMemoryGraphStore.new
          (WalRecord.AddNode 1 [("A")] [])).label_index L = some ids →
        ∃ ids2, hmGet s'.label_index L = some ids2 ∧ ∃ tail, ids2 = ids ++ tail) :=
  replay_wal_infallible.2.2.1 _ 1 [("B")] []

/-- Adjacency-index consistency: an edge id sits in an adjacency list
exactly when the edge table holds an edge with that id and that endpoint. -/
def AdjacencyInv (s : InMemoryGraphStore) : Prop :=
  ∀ eid fid,
    (eid ∈ hmGetList s.adjacency_out fid ↔
      ∃ e, hmGet s.edges eid = some e ∧ e.id = eid ∧ e.from_node = fid) ∧
    (eid ∈ hmGetList s.adjacency_in fid ↔
      ∃ e, hmGet s.edges eid = some e ∧ e.id = eid ∧ e.to_node = fid)

theorem AdjacencyInv_untouched (s s' : InMemoryGraphStore)
    (he : s'.edges = s.edges) (ho : s'.adjacency_out = s.adjacency_out)
    (hi : s'.adjacency_in = s.adjacency_in) (h : AdjacencyInv s) :
    AdjacencyInv s' := by
  intro eid fid
  rw [he, ho, hi]
  exact h eid fid

theorem AdjacencyInv_insert (s s' : InMemoryGraphStore) (id f t : Nat)
    (ty : String) (props : List (String × Value))
    (hinv : AdjacencyInv s) (hfresh : hmGet s.edges id = none)
    (he : s'.edges = hmInsert s.edges id ⟨id, f, t, ty, props⟩)
    (ho : s'.adjacency_out = hmPush s.adjacency_out f id)
    (hi : s'.adjacency_in = hmPush s.adjacency_in t id) :
    AdjacencyInv s' := by
  intro eid fid
  obtain ⟨hout, hin⟩ := hinv eid fid
  constructor
  · rw [ho, hmGetList_hmPush, he]
    constructor
    · intro hmem
      rcases List.mem_append.mp hmem with hold | hnew
      · obtain ⟨e, hge, hid, hfrom⟩ := hout.mp hold
        by_cases hik : id = eid
        · subst hik
          rw [hfresh] at hge
          exact absurd hge (by simp)
        · exact ⟨e, by rw [hmGet_hmInsert, if_neg hik]; exact hge, hid, hfrom⟩
      · by_cases hf : f = fid
        · rw [if_pos hf] at hnew
          obtain rfl : eid = id := by simpa using hnew
          exact ⟨⟨eid, f, t, ty, props⟩, by rw [hmGet_hmInsert, if_pos rfl], rfl, hf⟩
        · rw [if_neg hf] at hnew
          simp at hnew
    · rintro ⟨e, hge, hid, hfrom⟩
      rw [hmGet_hmInsert] at hge
      by_cases hik : id = eid
      · rw [if_pos hik] at hge
        obtain rfl : (⟨id, f, t, ty, props⟩ : Edge) = e := by simpa using hge
        refine List.mem_append.mpr (Or.inr ?_)
        rw [if_pos hfrom]
        simp [hik]
      · rw [if_neg hik] at hge
        exact List.mem_append.mpr (Or.inl (hout.mpr ⟨e, hge, hid, hfrom⟩))
  · rw [hi, hmGetList_hmPush, he]
    constructor
    · intro hmem
      rcases List.mem_append.mp hmem with hold | hnew
      · obtain ⟨e, hge, hid, hto⟩ := hin.mp hold
        by_cases hik : id = eid
        · subst hik
          rw [hfresh] at hge
          exact absurd hge (by simp)
        · exact ⟨e, by rw [hmGet_hmInsert, if_neg hik]; exact hge, hid, hto⟩
      · by_cases ht : t = fid
        · rw [if_pos ht] at hnew
          obtain rfl : eid = id := by simpa using hnew
          exact ⟨⟨eid, f, t, ty, props⟩, by rw [hmGet_hmInsert, if_pos rfl], rfl, ht⟩
        · rw [if_neg ht] at hnew
          simp at hnew
    · rintro ⟨e, hge, hid, hto⟩
      rw [hmGet_hmInsert] at hge
      by_cases hik : id = eid
      · rw [if_pos hik] at hge
        obtain rfl : (⟨id, f, t, ty, props⟩ : Edge) = e := by simpa using hge
        refine List.mem_append.mpr (Or.inr ?_)
        rw [if_pos hto]
        simp [hik]
      · rw [if_neg hik] at hge
        exact List.mem_append.mpr (Or.inl (hin.mpr ⟨e, hge, hid, hto⟩))

theorem EdgeReach_EdgeIdInv (s : InMemoryGraphStore) (h : EdgeReach s) :
    EdgeIdInv s := by
  induction h with
  | base =>
    intro k e hk
    simp [InMemoryGraphStore.new, hmGet] at hk
  | nodeStep s labels props _ ih =>
    intro k e hk
    have hk' : hmGet s.edges k = some e := by
      simpa [addNodeCore] using hk
    simpa [addNodeCore] using ih k e hk'
  | edgeStep s f t ty props _ hb ih =>
    intro k e hk
    have hk' : (if s.next_edge_id = k then
        some (⟨s.next_edge_id, f, t, ty, props⟩ : Edge)
        else hmGet s.edges k) = some e := by
      simpa [addEdgeCore, hmGet_hmInsert] using hk
    simp only [addEdgeCore]
    rw [Nat.mod_eq_of_lt hb]
    by_cases hik : s.next_edge_id = k
    · omega
    · rw [if_neg hik] at hk'
      have := ih k e hk'
      omega
  | replayStep s r _ hfresh ih =>
    cases r with
    | AddNode id labels props =>
      intro k e hk
      have hk' : hmGet s.edges k = some e := by
        simpa [applyRecord] using hk
      simpa [applyRecord] using ih k e hk'
    | AddEdge id f t ty props =>
      obtain ⟨hfr, hb⟩ := hfresh
      intro k e hk
      have hk' : (if id = k then some (⟨id, f, t, ty, props⟩ : Edge)
          else hmGet s.edges k) = some e := by
        simpa [applyRecord, hmGet_hmInsert] using hk
      simp only [applyRecord]
      rw [Nat.mod_eq_of_lt hb]
      by_cases hik : id = k
      · split <;> omega
      · rw [if_neg hik] at hk'
        have := ih k e hk'
        split <;> omega

theorem AdjacencyInv_new : AdjacencyInv InMemoryGraphStore.new := by
  intro eid fid
  constructor <;>
    simp [InMemoryGraphStore.new, hmGetList, hmGet]

theorem EdgeReach_AdjacencyInv (s : InMemoryGraphStore) (h : EdgeReach s) :
    AdjacencyInv s := by
  induction h with
  | base => exact AdjacencyInv_new
  | nodeStep s labels props _ ih =>
    exact AdjacencyInv_untouched s _ rfl rfl rfl ih
  | edgeStep s f t ty props hreach _ ih =>
    have hfresh : hmGet s.edges s.next_edge_id = none := by
      cases hg : hmGet s.edges s.next_edge_id with
      | none => rfl
      | some e =>
        have := EdgeReach_EdgeIdInv s hreach s.next_edge_id e hg
        omega
    exact AdjacencyInv_insert s _ s.next_edge_id f t ty props ih hfresh rfl rfl rfl
  | replayStep s r _ hfresh ih =>
    cases r with
    | AddNode id labels props =>
      exact AdjacencyInv_untouched s _ rfl rfl rfl ih
    | AddEdge id f t ty props =>
      obtain ⟨hfr, _⟩ := hfresh
      exact AdjacencyInv_insert s _ id f t ty props ih hfr rfl rfl rfl

/-- C6 (amended): in every store reachable by live insertions performed
while the edge counter is below `2^64 - 1` together with replay/load steps
whose edge records carry ids not already present in the edge table and
below `2^64 - 1` (so the `u64` counter advance never wraps), an edge id
appears in `adjacency_out[from]` and in `adjacency_in[to]` iff the edge
table holds an edge with that id and those endpoints; the first conjunct
ties the segment-loader loop to exactly the replay update, so loads are
covered by the replay steps of `EdgeReach`. -/
theorem adjacency_edge_table_iff :
    (∀ (s : InMemoryGraphStore) (js : List Json),
      load_edges_loop s js = replay_wal s (js.map edgeJsonRecord)) ∧
    (∀ s : InMemoryGraphStore, EdgeReach s → ∀ eid fid tid,
      (eid ∈ hmGetList s.adjacency_out fid ∧ eid ∈ hmGetList s.adjacency_in tid) ↔
        ∃ e, hmGet s.edges eid = some e ∧ e.id = eid ∧
          e.from_node = fid ∧ e.to_node = tid) := by
  constructor
  · intro s js
    rw [load_edges_loop_replay]
  · intro s hreach eid fid tid
    have hadj := EdgeReach_AdjacencyInv s hreach
    constructor
    · rintro ⟨hmo, hmi⟩
      obtain ⟨e, hge, hid, hfrom⟩ := ((hadj eid fid).1).mp hmo
      obtain ⟨e2, hge2, _, hto⟩ := ((hadj eid tid).2).mp hmi
      obtain rfl : e = e2 := by
        rw [hge] at hge2
        exact Option.some.inj hge2
      exact ⟨e, hge, hid, hfrom, hto⟩
    · rintro ⟨e, hge, hid, hfrom, hto⟩
      exact ⟨((hadj eid fid).1).mpr ⟨e, hge, hid, hfrom⟩,
        ((hadj eid tid).2).mpr ⟨e, hge, hid, hto⟩⟩

/-- Counterexample to C6 as stated: replaying two `AddEdge` records with
the same id 1 (a store reachable through `replay_wal`) leaves the stale
adjacency entries of the overwritten edge, which point at endpoints the
edge table no longer attests. -/
theorem adjacency_edge_table_cex :
    ∃ s', replay_wal InMemoryGraphStore.new
        [WalRecord.AddEdge 1 1 2 ("K") [], WalRecord.AddEdge 1 3 4 ("K") []] =
          .ok s' ∧
      1 ∈ hmGetList s'.adjacency_out 1 ∧ 1 ∈ hmGetList s'.adjacency_in 2 ∧
      ¬∃ e, hmGet s'.edges 1 = some e ∧ e.id = 1 ∧
        e.from_node = 1 ∧ e.to_node = 2 := by
  refine ⟨_, rfl, ?_, ?_, ?_⟩
  · decide
  · decide
  · rintro ⟨e, hge, hid, hfrom, hto⟩
    have he : some (⟨1, 3, 4, ("K"), []⟩ : Edge) = some e := hge
    obtain rfl : (⟨1, 3, 4, ("K"), []⟩ : Edge) = e := Option.some.inj he
    simp at hfrom

/-- Witness for C6 at a concrete reachable store with one fresh edge. -/
theorem adjacency_edge_table_iff_witness :
    (1 ∈ hmGetList (addEdgeCore InMemoryGraphStore.new 1 2 ("K") []).2.adjacency_out 1 ∧
      1 ∈ hmGetList (addEdgeCore InMemoryGraphStore.new 1 2 ("K") []).2.adjacency_in 2) ↔
      ∃ e, hmGet (addEdgeCore InMemoryGraphStore.new 1 2 ("K") []).2.edges 1 = some e ∧
        e.id = 1 ∧ e.from_node = 1 ∧ e.to_node = 2 :=
  adjacency_edge_table_iff.2 _
    (EdgeReach.edgeStep InMemoryGraphStore.new 1 2 ("K") [] EdgeReach.base
      (by decide)) 1 1 2

/-- Fold of `add_node` calls from an arbitrary starting store. -/
def applyCalls (s : InMemoryGraphStore)
    (calls : List (List String × List (String × Value))) : InMemoryGraphStore :=
  calls.foldl (fun a c => (addNodeCore a c.1 c.2).2) s

theorem scan_by_label_eq (s : InMemoryGraphStore) (L : String) :
    scan_by_label s L =
      .ok ((hmGetList s.label_index L).filterMap (fun id => hmGet s.nodes id)) := by
  unfold scan_by_label hmGetList
  cases hmGet s.label_index L <;> simp

theorem applyCalls_spec (calls : List (List String × List (String × Value))) :
    ∀ s : InMemoryGraphStore, IdInv s →
      s.next_node_id + calls.length < 2 ^ 64 →
      (applyCalls s calls).nodes =
          s.nodes ++ (nodesOfCalls s.next_node_id calls).map (fun n => (n.id, n)) ∧
        ∀ L, hmGetList (applyCalls s calls).label_index L =
          hmGetList s.label_index L ++ labelIdsOf L (nodesOfCalls s.next_node_id calls) := by
  induction calls with
  | nil => intro s _ _; simp [applyCalls, nodesOfCalls, labelIdsOf]
  | cons c cs ih =>
    intro s hs hlen
    have hb : s.next_node_id + 1 < 2 ^ 64 := by
      simp only [List.length_cons] at hlen
      omega
    have hfresh : hmGet s.nodes s.next_node_id = none := by
      cases hg : hmGet s.nodes s.next_node_id with
      | none => rfl
      | some n =>
        have := hs.1 s.next_node_id n hg
        omega
    have hnodes1 : (addNodeCore s c.1 c.2).2.nodes =
        s.nodes ++ [(s.next_node_id, ⟨s.next_node_id, c.1, c.2⟩)] := by
      simp only [addNodeCore]
      exact hmInsert_append s.nodes s.next_node_id _ hfresh
    have hnext1 : (addNodeCore s c.1 c.2).2.next_node_id = s.next_node_id + 1 := by
      simp only [addNodeCore]
      exact Nat.mod_eq_of_lt hb
    have hlab1 : ∀ L, hmGetList (addNodeCore s c.1 c.2).2.label_index L =
        hmGetList s.label_index L ++ List.replicate (c.1.count L) s.next_node_id := by
      intro L
      simp only [addNodeCore]
      exact foldl_hmPush_labels c.1 s.label_index L s.next_node_id
    have hlen' : (addNodeCore s c.1 c.2).2.next_node_id + cs.length < 2 ^ 64 := by
      rw [hnext1]
      simp only [List.length_cons] at hlen
      omega
    obtain ⟨ihn, ihl⟩ := ih (addNodeCore s c.1 c.2).2
      (IdInv_addNodeCore s c.1 c.2 hb hs) hlen'
    constructor
    · have : applyCalls s (c :: cs) = applyCalls (addNodeCore s c.1 c.2).2 cs := rfl
      rw [this, ihn, hnodes1, hnext1]
      simp [nodesOfCalls]
    · intro L
      have : applyCalls s (c :: cs) = applyCalls (addNodeCore s c.1 c.2).2 cs := rfl
      rw [this, ihl L, hlab1 L, hnext1]
      simp [nodesOfCalls, labelIdsOf]

theorem filterMap_replicate_some {α β : Type} (f : α → Option β) (x : α) (y : β)
    (h : f x = some y) (n : Nat) :
    (List.replicate n x).filterMap f = List.replicate n y := by
  induction n with
  | zero => rfl
  | succ n ih => simp [List.replicate_succ, List.filterMap_cons, h, ih]

theorem filterMap_ext_mem {α β : Type} (l : List α) (f g : α → Option β)
    (h : ∀ x ∈ l, f x = g x) : l.filterMap f = l.filterMap g := by
  induction l with
  | nil => rfl
  | cons x xs ih =>
    have hx := h x (List.mem_cons_self x xs)
    simp only [List.filterMap_cons, hx]
    rw [ih (fun y hy => h y (List.mem_cons_of_mem x hy))]

theorem labelIdsOf_lb (L : String) (calls : List (List String × List (String × Value))) :
    ∀ next id, id ∈ labelIdsOf L (nodesOfCalls next calls) → next ≤ id := by
  induction calls with
  | nil => intro next id h; simp [nodesOfCalls, labelIdsOf] at h
  | cons c cs ih =>
    intro next id h
    simp only [nodesOfCalls, labelIdsOf, List.mem_append] at h
    rcases h with h | h
    · obtain rfl := List.eq_of_mem_replicate h
      omega
    · have := ih (next + 1) id h
      omega

theorem mem_nodesOfCalls (calls : List (List String × List (String × Value))) :
    ∀ next (N : Node), N ∈ nodesOfCalls next calls →
      ∃ i, i < calls.length ∧
        N = ⟨next + i, (calls.getD i ([], [])).1, (calls.getD i ([], [])).2⟩ := by
  induction calls with
  | nil => intro next N h; simp [nodesOfCalls] at h
  | cons c cs ih =>
    intro next N h
    simp only [nodesOfCalls, List.mem_cons] at h
    rcases h with rfl | h
    · exact ⟨0, by simp, by simp⟩
    · obtain ⟨i, hi, hN⟩ := ih (next + 1) N h
      refine ⟨i + 1, by simpa using hi, ?_⟩
      have harith : next + 1 + i = next + (i + 1) := by omega
      rw [hN, harith]
      simp

theorem mem_scanClosed (L : String) : ∀ (ns : List Node) (N : Node),
    N ∈ scanClosed L ns → N ∈ ns ∧ L ∈ N.labels := by
  intro ns
  induction ns with
  | nil => intro N h; simp [scanClosed] at h
  | cons n rest ih =>
    intro N h
    simp only [scanClosed, List.mem_append] at h
    rcases h with h | h
    · obtain ⟨hne, hNn⟩ := List.mem_replicate.mp h
      constructor
      · rw [hNn]
        exact List.mem_cons_self n rest
      · have hpos : 0 < n.labels.count L := Nat.pos_of_ne_zero hne
        rw [hNn]
        exact List.count_pos_iff.mp hpos
    · obtain ⟨hmem, hlab⟩ := ih N h
      exact ⟨List.mem_cons_of_mem n hmem, hlab⟩

theorem scanClosed_eq_nil (L : String) : ∀ ns : List Node,
    (∀ n ∈ ns, L ∉ n.labels) → scanClosed L ns = [] := by
  intro ns
  induction ns with
  | nil => intro _; rfl
  | cons n rest ih =>
    intro h
    have hc : n.labels.count L = 0 :=
      List.count_eq_zero.mpr (h n (List.mem_cons_self n rest))
    simp [scanClosed, hc, ih (fun m hm => h m (List.mem_cons_of_mem n hm))]

theorem labels_nodesOfCalls (calls : List (List String × List (String × Value))) :
    ∀ next (n : Node), n ∈ nodesOfCalls next calls → ∃ c ∈ calls, n.labels = c.1 := by
  induction calls with
  | nil => intro next n h; simp [nodesOfCalls] at h
  | cons c cs ih =>
    intro next n h
    simp only [nodesOfCalls, List.mem_cons] at h
    rcases h with rfl | h
    · exact ⟨c, List.mem_cons_self c cs, rfl⟩
    · obtain ⟨c', hc', hl⟩ := ih (next + 1) n h
      exact ⟨c', List.mem_cons_of_mem c hc', hl⟩

theorem filterScan (L : String) (calls : List (List String × List (String × Value))) :
    ∀ next,
      (labelIdsOf L (nodesOfCalls next calls)).filterMap
        (fun id => hmGet ((nodesOfCalls next calls).map (fun n => (n.id, n))) id) =
        scanClosed L (nodesOfCalls next calls) := by
  induction calls with
  | nil => intro next; rfl
  | cons c cs ih =>
    intro next
    simp only [nodesOfCalls, labelIdsOf, scanClosed, List.filterMap_append, List.map_cons]
    have hhead : hmGet ((next, (⟨next, c.1, c.2⟩ : Node)) ::
        (nodesOfCalls (next + 1) cs).map (fun n => (n.id, n))) next =
        some ⟨next, c.1, c.2⟩ := by
      simp [hmGet]
    refine congrArg₂ (· ++ ·) ?_ ?_
    · exact filterMap_replicate_some _ _ _ hhead _
    · rw [filterMap_ext_mem _ _
        (fun id => hmGet ((nodesOfCalls (next + 1) cs).map (fun n => (n.id, n))) id) ?_]
      · exact ih (next + 1)
      · intro id hid
        have hlb := labelIdsOf_lb L cs (next + 1) id hid
        simp only [hmGet]
        rw [if_neg (by omega)]

theorem scanClosed_id_lb (L : String) (calls : List (List String × List (String × Value)))
    (next : Nat) (N : Node) (h : N ∈ scanClosed L (nodesOfCalls next calls)) :
    next ≤ N.id := by
  obtain ⟨hmem, _⟩ := mem_scanClosed L _ N h
  obtain ⟨i, _, hN⟩ := mem_nodesOfCalls calls next N hmem
  rw [hN]
  simp

theorem filter_scanClosed (L : String) (calls : List (List String × List (String × Value))) :
    ∀ next i, i < calls.length →
      ((scanClosed L (nodesOfCalls next calls)).filter
          (fun n => n.id = next + i)).length =
        ((calls.getD i ([], [])).1).count L := by
  induction calls with
  | nil => intro next i h; simp at h
  | cons c cs ih =>
    intro next i h
    simp only [nodesOfCalls, scanClosed, List.filter_append, List.length_append]
    cases i with
    | zero =>
      have h1 : (List.replicate (List.count L c.1) (⟨next, c.1, c.2⟩ : Node)).filter
          (fun n => n.id = next + 0) =
          List.replicate (List.count L c.1) ⟨next, c.1, c.2⟩ := by
        rw [List.filter_eq_self]
        intro N hN
        obtain rfl := List.eq_of_mem_replicate hN
        simp
      have h2 : (scanClosed L (nodesOfCalls (next + 1) cs)).filter
          (fun n => n.id = next + 0) = [] := by
        rw [List.filter_eq_nil_iff]
        intro N hN
        have := scanClosed_id_lb L cs (next + 1) N hN
        simp
        omega
      rw [h1, h2]
      simp
    | succ j =>
      have h1 : (List.replicate (List.count L c.1) (⟨next, c.1, c.2⟩ : Node)).filter
          (fun n => n.id = next + (j + 1)) = [] := by
        rw [List.filter_eq_nil_iff]
        intro N hN
        obtain rfl := List.eq_of_mem_replicate hN
        simp
      rw [h1]
      simp only [List.length_nil, Nat.zero_add, List.getD_cons_succ]
      have harith : next + (j + 1) = (next + 1) + j := by omega
      rw [harith]
      exact ih (next + 1) j (by simpa using h)

/-- C5: in a store built from empty by a sequence of `add_node` calls —
few enough that the assigned `u64` ids stay representable, automatic in
Rust — `scan_by_label L` succeeds and contains exactly the nodes whose
label list at creation contained `L` — once per occurrence of `L`
(duplicates give duplicates) — and a label used by no call yields the
empty list. -/
theorem scan_by_label_completeness
    (calls : List (List String × List (String × Value))) (L : String)
    (hlen : calls.length + 1 < 2 ^ 64) :
    ∃ res, scan_by_label (buildNodes calls) L = .ok res ∧
      (∀ i, i < calls.length →
        (res.filter (fun n => n.id = i + 1)).length =
          ((calls.getD i ([], [])).1).count L) ∧
      (∀ N ∈ res, ∃ i, i < calls.length ∧ N = mkNodeAt calls i ∧ L ∈ N.labels) ∧
      ((∀ c ∈ calls, L ∉ c.1) → res = []) := by
  obtain ⟨hnodes, hlab⟩ := applyCalls_spec calls InMemoryGraphStore.new IdInv_new
    (by simpa [InMemoryGraphStore.new, Nat.add_comm] using hlen)
  have hbuild : buildNodes calls = applyCalls InMemoryGraphStore.new calls := rfl
  have hnodes' : (buildNodes calls).nodes =
      (nodesOfCalls 1 calls).map (fun n => (n.id, n)) := by
    rw [hbuild, hnodes]
    rfl
  have hlab' : hmGetList (buildNodes calls).label_index L =
      labelIdsOf L (nodesOfCalls 1 calls) := by
    rw [hbuild, hlab L]
    rfl
  refine ⟨scanClosed L (nodesOfCalls 1 calls), ?_, ?_, ?_, ?_⟩
  · rw [scan_by_label_eq, hlab', hnodes']
    rw [filterScan L calls 1]
  · intro i hi
    have := filter_scanClosed L calls 1 i hi
    have harith : ∀ n : Node, (n.id = 1 + i) = (n.id = i + 1) := by
      intro n
      rw [Nat.add_comm]
    simp only [harith] at this
    exact this
  · intro N hN
    obtain ⟨hmem, hlabmem⟩ := mem_scanClosed L _ N hN
    obtain ⟨i, hi, hNe⟩ := mem_nodesOfCalls calls 1 N hmem
    refine ⟨i, hi, ?_, hlabmem⟩
    rw [hNe]
    unfold mkNodeAt
    rw [Nat.add_comm]
  · intro hnone
    apply scanClosed_eq_nil
    intro n hn
    obtain ⟨c, hc, hl⟩ := labels_nodesOfCalls calls 1 n hn
    rw [hl]
    exact hnone c hc

/-- The concrete call list used by the C5 witness. -/
def witnessCalls : List (List String × List (String × Value)) :=
  [([("Person")], []), ([("Robot")], [])]

/-- Witness for C5 at a concrete two-call store. -/
theorem scan_by_label_completeness_witness :
    ∃ res, scan_by_label (buildNodes witnessCalls) ("Person") = .ok res ∧
      (∀ i, i < witnessCalls.length →
        (res.filter (fun n => n.id = i + 1)).length =
          ((witnessCalls.getD i ([], [])).1).count ("Person")) ∧
      (∀ N ∈ res, ∃ i, i < witnessCalls.length ∧
        N = mkNodeAt witnessCalls i ∧ ("Person") ∈ N.labels) ∧
      ((∀ c ∈ witnessCalls, ("Person") ∉ c.1) → res = []) :=
  scan_by_label_completeness witnessCalls ("Person") (by decide)

theorem nodeJsonRecord_nodeJson (n : Node) (h64 : n.id < 2 ^ 64)
    (hnd : (n.properties.map Prod.fst).Nodup) :
    nodeJsonRecord (nodeJson n) = WalRecord.AddNode n.id n.labels n.properties := by
  have h64' : n.id < 18446744073709551616 := by simpa using h64
  simp [nodeJsonRecord, nodeJson, Json.index, objFind, Json.as_u64,
    Json.as_string_list, jsonStrings_map_str, props_round_trip n.properties hnd, h64']

theorem edgeJsonRecord_edgeJson (e : Edge) (h64 : e.id < 2 ^ 64)
    (hf : e.from_node < 2 ^ 64) (ht : e.to_node < 2 ^ 64)
    (hnd : (e.properties.map Prod.fst).Nodup) :
    edgeJsonRecord (edgeJson e) =
      WalRecord.AddEdge e.id e.from_node e.to_node e.edge_type e.properties := by
  have h64' : e.id < 18446744073709551616 := by simpa using h64
  have hf' : e.from_node < 18446744073709551616 := by simpa using hf
  have ht' : e.to_node < 18446744073709551616 := by simpa using ht
  simp [edgeJsonRecord, edgeJson, Json.index, objFind, Json.as_u64, Json.as_str,
    Json.as_string_list, props_round_trip e.properties hnd, h64', hf', ht']

theorem fold_applyAddNode (ns : List Node) : ∀ s : InMemoryGraphStore,
    ns.foldl (fun a n => applyRecord a (WalRecord.AddNode n.id n.labels n.properties)) s =
      { s with
          nodes := ns.foldl (fun t n => hmInsert t n.id n) s.nodes,
          label_index := ns.foldl (fun li n =>
            n.labels.foldl (fun li2 label => hmPush li2 label n.id) li) s.label_index,
          next_node_id := ns.foldl
            (fun c n => if c ≤ n.id then (n.id + 1) % 2 ^ 64 else c) s.next_node_id } := by
  induction ns with
  | nil => intro s; rfl
  | cons n rest ih =>
    intro s
    simp only [List.foldl_cons]
    rw [ih (applyRecord s (WalRecord.AddNode n.id n.labels n.properties))]
    rfl

theorem fold_applyAddEdge (es : List Edge) : ∀ s : InMemoryGraphStore,
    es.foldl (fun a e => applyRecord a
        (WalRecord.AddEdge e.id e.from_node e.to_node e.edge_type e.properties)) s =
      { s with
          edges := es.foldl (fun t e => hmInsert t e.id e) s.edges,
          adjacency_out := es.foldl (fun a e => hmPush a e.from_node e.id) s.adjacency_out,
          adjacency_in := es.foldl (fun a e => hmPush a e.to_node e.id) s.adjacency_in,
          next_edge_id := es.foldl
            (fun c e => if c ≤ e.id then (e.id + 1) % 2 ^ 64 else c) s.next_edge_id } := by
  induction es with
  | nil => intro s; rfl
  | cons e rest ih =>
    intro s
    simp only [List.foldl_cons]
    rw [ih (applyRecord s
      (WalRecord.AddEdge e.id e.from_node e.to_node e.edge_type e.properties))]
    rfl

theorem pairs_eta {β : Type} (idf : β → Nat) (l : List (Nat × β))
    (hids : ∀ kv ∈ l, idf kv.2 = kv.1) :
    (l.map Prod.snd).map (fun b => (idf b, b)) = l := by
  induction l with
  | nil => rfl
  | cons kv rest ih =>
    have h1 := hids kv (List.mem_cons_self kv rest)
    have h2 := ih (fun kv' h => hids kv' (List.mem_cons_of_mem kv h))
    simp only [List.map_cons]
    rw [h1, h2]

theorem foldl_insert_values {β : Type} (idf : β → Nat) (l : List (Nat × β))
    (hids : ∀ kv ∈ l, idf kv.2 = kv.1) (hnd : (l.map Prod.fst).Nodup) :
    (l.map Prod.snd).foldl (fun t b => hmInsert t (idf b) b) [] = l := by
  have step1 : (l.map Prod.snd).foldl (fun t b => hmInsert t (idf b) b) [] =
      ((l.map Prod.snd).map (fun b => (idf b, b))).foldl
        (fun t kv => hmInsert t kv.1 kv.2) [] := by
    simp [List.foldl_map]
  rw [step1, pairs_eta idf l hids]
  exact foldl_hmInsert l [] (by simpa using hnd)

theorem flush_load_id (S : InMemoryGraphStore) (h : WF S) :
    load_from_segments (some (Bytes.json (flush_to_segments S).1))
      (some (Bytes.json (flush_to_segments S).2)) = .ok S := by
  obtain ⟨hN, hE, hndN, hndE, hLI, hAO, hAI, hNN, hNE⟩ := h
  have hcompN : S.nodes.map (nodeJsonRecord ∘ nodeJson ∘ Prod.snd) =
      (S.nodes.map Prod.snd).map
        (fun n => WalRecord.AddNode n.id n.labels n.properties) := by
    rw [List.map_map]
    apply List.map_congr_left
    intro kv hkv
    obtain ⟨_, h64, hnd⟩ := hN kv hkv
    show nodeJsonRecord (nodeJson kv.2) =
      WalRecord.AddNode kv.2.id kv.2.labels kv.2.properties
    exact nodeJsonRecord_nodeJson kv.2 h64 hnd
  have hcompE : S.edges.map (edgeJsonRecord ∘ edgeJson ∘ Prod.snd) =
      (S.edges.map Prod.snd).map (fun e =>
        WalRecord.AddEdge e.id e.from_node e.to_node e.edge_type e.properties) := by
    rw [List.map_map]
    apply List.map_congr_left
    intro kv hkv
    obtain ⟨_, h64, hf, ht, hnd⟩ := hE kv hkv
    show edgeJsonRecord (edgeJson kv.2) =
      WalRecord.AddEdge kv.2.id kv.2.from_node kv.2.to_node kv.2.edge_type kv.2.properties
    exact edgeJsonRecord_edgeJson kv.2 h64 hf ht hnd
  have hidxN : ((write_nodes_segment S).index ("nodes")).as_array =
      some ((S.nodes.map Prod.snd).map nodeJson) := by
    simp [write_nodes_segment, Json.index, objFind, Json.as_array]
  have hidxE : ((write_edges_segment S).index ("edges")).as_array =
      some ((S.edges.map Prod.snd).map edgeJson) := by
    simp [write_edges_segment, Json.index, objFind, Json.as_array]
  have hfoldN : (S.nodes.map Prod.snd).foldl
      (fun t n => hmInsert t n.id n) [] = S.nodes :=
    foldl_insert_values Node.id S.nodes (fun kv hkv => (hN kv hkv).1) hndN
  have hfoldE : (S.edges.map Prod.snd).foldl
      (fun t e => hmInsert t e.id e) [] = S.edges :=
    foldl_insert_values Edge.id S.edges (fun kv hkv => (hE kv hkv).1) hndE
  have hloadN : load_nodes_segment InMemoryGraphStore.new
      (Bytes.json (write_nodes_segment S)) = .ok
        ⟨S.nodes, [], buildLabelIndex (S.nodes.map Prod.snd), [], [],
          nodeCounterOf (S.nodes.map Prod.snd), 1⟩ := by
    simp only [load_nodes_segment, hidxN]
    rw [load_nodes_loop_replay]
    simp only [replay_wal, List.map_map]
    rw [hcompN, List.foldl_map, fold_applyAddNode]
    simp only [InMemoryGraphStore.new]
    rw [hfoldN]
    rfl
  have hloadE : load_edges_segment
      (⟨S.nodes, [], buildLabelIndex (S.nodes.map Prod.snd), [], [],
        nodeCounterOf (S.nodes.map Prod.snd), 1⟩ : InMemoryGraphStore)
      (Bytes.json (write_edges_segment S)) = .ok
        ⟨S.nodes, S.edges, buildLabelIndex (S.nodes.map Prod.snd),
          buildAdjOut (S.edges.map Prod.snd), buildAdjIn (S.edges.map Prod.snd),
          nodeCounterOf (S.nodes.map Prod.snd),
          edgeCounterOf (S.edges.map Prod.snd)⟩ := by
    simp only [load_edges_segment, hidxE]
    rw [load_edges_loop_replay]
    simp only [replay_wal, List.map_map]
    rw [hcompE, List.foldl_map, fold_applyAddEdge]
    rw [hfoldE]
    rfl
  have hfin : load_from_segments (some (Bytes.json (flush_to_segments S).1))
      (some (Bytes.json (flush_to_segments S).2)) = .ok
        ⟨S.nodes, S.edges, buildLabelIndex (S.nodes.map Prod.snd),
          buildAdjOut (S.edges.map Prod.snd), buildAdjIn (S.edges.map Prod.snd),
          nodeCounterOf (S.nodes.map Prod.snd),
          edgeCounterOf (S.edges.map Prod.snd)⟩ := by
    simp only [load_from_segments, flush_to_segments, hloadN]
    exact hloadE
  rw [hfin]
  rw [← hLI, ← hAO, ← hAI, ← hNN, ← hNE]

/-- C2 (amended): for every well-formed store — indexes and counters exactly
those derived from its tables, as holds along add-only histories — loading
the two segment documents written by `flush_to_segments` rebuilds the
identical store: equal node and edge tables, label index, adjacency
indexes, and id counters. -/
theorem flush_load_round_trip (S : InMemoryGraphStore) (h : WF S) :
    load_from_segments (some (Bytes.json (flush_to_segments S).1))
      (some (Bytes.json (flush_to_segments S).2)) = .ok S :=
  flush_load_id S h

/-- Witness for C2 at a concrete store with one node and one edge. -/
theorem flush_load_round_trip_witness :
    WF (addEdgeCore (addNodeCore InMemoryGraphStore.new [("Person")]
        [(("age"), Json.num 3)]).2 1 2 ("K") []).2 ∧
      load_from_segments
        (some (Bytes.json (flush_to_segments
          ((addEdgeCore (addNodeCore InMemoryGraphStore.new [("Person")]
            [(("age"), Json.num 3)]).2 1 2 ("K") []).2)).1))
        (some (Bytes.json (flush_to_segments
          ((addEdgeCore (addNodeCore InMemoryGraphStore.new [("Person")]
            [(("age"), Json.num 3)]).2 1 2 ("K") []).2)).2)) =
        .ok ((addEdgeCore (addNodeCore InMemoryGraphStore.new [("Person")]
          [(("age"), Json.num 3)]).2 1 2 ("K") []).2) :=
  ⟨by decide, flush_load_round_trip _ (by decide)⟩

/-- Counterexample to C2 as stated: a store reachable through `replay_wal`
with a colliding node id keeps a stale label-index entry (label `A` still
lists node 1) that the flush/load cycle drops entirely, so not even
containment of the label index is preserved for arbitrary stores. -/
theorem flush_load_round_trip_cex :
    hmGet (applyRecord (applyRecord InMemoryGraphStore.new
        (WalRecord.AddNode 1 [("A")] []))
        (WalRecord.AddNode 1 [("B")] [])).label_index ("A") = some [1] ∧
      (load_from_segments
          (some (Bytes.json (flush_to_segments (applyRecord (applyRecord
            InMemoryGraphStore.new (WalRecord.AddNode 1 [("A")] []))
            (WalRecord.AddNode 1 [("B")] []))).1))
          (some (Bytes.json (flush_to_segments (applyRecord (applyRecord
            InMemoryGraphStore.new (WalRecord.AddNode 1 [("A")] []))
            (WalRecord.AddNode 1 [("B")] []))).2))).map
        (fun S' => hmGet S'.label_index ("A")) = .ok none :=
  ⟨rfl, rfl⟩

theorem replay_mutRecords (ms : List Mutation) : ∀ s : InMemoryGraphStore,
    replay_wal s (mutRecords s ms) = .ok (applyMuts s ms) := by
  induction ms with
  | nil => intro s; rfl
  | cons m rest ih =>
    intro s
    cases m with
    | addNodeM labels props =>
      have hstep : applyRecord s (WalRecord.AddNode s.next_node_id labels props) =
          (addNodeCore s labels props).2 := by
        simp [applyRecord, addNodeCore]
      show replay_wal (applyRecord s (WalRecord.AddNode s.next_node_id labels props))
          (mutRecords (addNodeCore s labels props).2 rest) =
        .ok (applyMuts (addNodeCore s labels props).2 rest)
      rw [hstep]
      exact ih _
    | addEdgeM f t ty props =>
      have hstep : applyRecord s (WalRecord.AddEdge s.next_edge_id f t ty props) =
          (addEdgeCore s f t ty props).2 := by
        simp [applyRecord, addEdgeCore]
      show replay_wal (applyRecord s (WalRecord.AddEdge s.next_edge_id f t ty props))
          (mutRecords (addEdgeCore s f t ty props).2 rest) =
        .ok (applyMuts (addEdgeCore s f t ty props).2 rest)
      rw [hstep]
      exact ih _

/-- C3 (amended): for every well-formed store S0 and mutation sequence M,
loading S0's flushed segments rebuilds S0 itself, and replaying the WAL
records that carry the ids the live mutations were assigned produces
exactly the store obtained by applying M directly. -/
theorem wal_replay_equivalence (S0 : InMemoryGraphStore) (h : WF S0)
    (ms : List Mutation) :
    ∃ S', load_from_segments (some (Bytes.json (flush_to_segments S0).1))
        (some (Bytes.json (flush_to_segments S0).2)) = .ok S' ∧
      replay_wal S' (mutRecords S0 ms) = .ok (applyMuts S0 ms) :=
  ⟨S0, flush_load_id S0 h, replay_mutRecords ms S0⟩

/-- Witness for C3 at a one-node store and a one-edge mutation list. -/
theorem wal_replay_equivalence_witness :
    WF (addNodeCore InMemoryGraphStore.new [("X")] []).2 ∧
      ∃ S', load_from_segments
          (some (Bytes.json (flush_to_segments
            ((addNodeCore InMemoryGraphStore.new [("X")] []).2)).1))
          (some (Bytes.json (flush_to_segments
            ((addNodeCore InMemoryGraphStore.new [("X")] []).2)).2)) = .ok S' ∧
        replay_wal S' (mutRecords (addNodeCore InMemoryGraphStore.new [("X")] []).2
            [Mutation.addEdgeM 1 2 ("E") []]) =
          .ok (applyMuts (addNodeCore InMemoryGraphStore.new [("X")] []).2
            [Mutation.addEdgeM 1 2 ("E") []]) :=
  ⟨by decide, wal_replay_equivalence _ (by decide) _⟩

/-- Counterexample to C3 as stated: starting from the same collision store
(reachable via `replay_wal`), the direct path keeps the stale label entry
for `A` while the flush-then-replay path loses it, so the two resulting
stores differ in their label index even for an empty mutation sequence. -/
theorem wal_replay_equivalence_cex :
    hmGet (applyMuts (applyRecord (applyRecord InMemoryGraphStore.new
        (WalRecord.AddNode 1 [("A")] []))
        (WalRecord.AddNode 1 [("B")] [])) []).label_index ("A") = some [1] ∧
      ((load_from_segments
          (some (Bytes.json (flush_to_segments (applyRecord (applyRecord
            InMemoryGraphStore.new (WalRecord.AddNode 1 [("A")] []))
            (WalRecord.AddNode 1 [("B")] []))).1))
          (some (Bytes.json (flush_to_segments (applyRecord (applyRecord
            InMemoryGraphStore.new (WalRecord.AddNode 1 [("A")] []))
            (WalRecord.AddNode 1 [("B")] []))).2))).bind
        (fun S' => (replay_wal S' (mutRecords (applyRecord (applyRecord
            InMemoryGraphStore.new (WalRecord.AddNode 1 [("A")] []))
            (WalRecord.AddNode 1 [("B")] [])) [])).map
          (fun S2 => hmGet S2.label_index ("A")))) = .ok none :=
  ⟨rfl, rfl⟩

theorem hmGet_some_mem {α β : Type} [DecidableEq α] (m : List (α × β)) (k : α) (v : β)
    (h : hmGet m k = some v) : (k, v) ∈ m := by
  induction m with
  | nil => simp [hmGet] at h
  | cons kv rest ih =>
    obtain ⟨k0, v0⟩ := kv
    simp only [hmGet] at h
    by_cases hk : k0 = k
    · rw [if_pos hk] at h
      obtain rfl := Option.some.inj h
      rw [← hk]
      exact List.mem_cons_self _ _
    · rw [if_neg hk] at h
      exact List.mem_cons_of_mem _ (ih h)

theorem counter_le_foldlN (l : List Nat) :
    ∀ c, (∀ i ∈ l, i + 1 < 2 ^ 64) →
      c ≤ l.foldl (fun c i => if c ≤ i then (i + 1) % 2 ^ 64 else c) c := by
  induction l with
  | nil => intro c _; exact le_refl c
  | cons i rest ih =>
    intro c hb
    simp only [List.foldl_cons]
    refine le_trans ?_ (ih _ (fun j hj => hb j (List.mem_cons_of_mem i hj)))
    rw [Nat.mod_eq_of_lt (hb i (List.mem_cons_self i rest))]
    split <;> omega

theorem mem_lt_counter_foldlN (l : List Nat) :
    ∀ c i, (∀ j ∈ l, j + 1 < 2 ^ 64) → i ∈ l →
      i < l.foldl (fun c i => if c ≤ i then (i + 1) % 2 ^ 64 else c) c := by
  induction l with
  | nil => intro c i _ h; simp at h
  | cons j rest ih =>
    intro c i hb h
    simp only [List.foldl_cons]
    rcases List.mem_cons.mp h with rfl | h
    · refine Nat.lt_of_lt_of_le ?_
        (counter_le_foldlN rest _ (fun k hk => hb k (List.mem_cons_of_mem i hk)))
      rw [Nat.mod_eq_of_lt (hb i (List.mem_cons_self i rest))]
      split <;> omega
    · exact ih _ i (fun k hk => hb k (List.mem_cons_of_mem j hk)) h

theorem counter_foldlN_lt (l : List Nat) :
    ∀ c, c < 2 ^ 64 →
      l.foldl (fun c i => if c ≤ i then (i + 1) % 2 ^ 64 else c) c < 2 ^ 64 := by
  induction l with
  | nil => intro c h; exact h
  | cons i rest ih =>
    intro c h
    simp only [List.foldl_cons]
    refine ih _ ?_
    split
    · exact Nat.mod_lt _ (by norm_num)
    · exact h

theorem nodeCounterOf_eq_map (ns : List Node) :
    nodeCounterOf ns =
      (ns.map Node.id).foldl (fun c i => if c ≤ i then (i + 1) % 2 ^ 64 else c) 1 := by
  rw [List.foldl_map]
  rfl

theorem edgeCounterOf_eq_map (es : List Edge) :
    edgeCounterOf es =
      (es.map Edge.id).foldl (fun c i => if c ≤ i then (i + 1) % 2 ^ 64 else c) 1 := by
  rw [List.foldl_map]
  rfl

theorem mem_lt_nodeCounterOf (ns : List Node) (n : Node)
    (hb : ∀ m ∈ ns, m.id + 1 < 2 ^ 64) (h : n ∈ ns) :
    n.id < nodeCounterOf ns := by
  rw [nodeCounterOf_eq_map]
  refine mem_lt_counter_foldlN (ns.map Node.id) 1 n.id ?_
    (List.mem_map_of_mem Node.id h)
  intro j hj
  obtain ⟨m, hm, rfl⟩ := List.mem_map.mp hj
  exact hb m hm

theorem mem_lt_edgeCounterOf (es : List Edge) (e : Edge)
    (hb : ∀ d ∈ es, d.id + 1 < 2 ^ 64) (h : e ∈ es) :
    e.id < edgeCounterOf es := by
  rw [edgeCounterOf_eq_map]
  refine mem_lt_counter_foldlN (es.map Edge.id) 1 e.id ?_
    (List.mem_map_of_mem Edge.id h)
  intro j hj
  obtain ⟨d, hd, rfl⟩ := List.mem_map.mp hj
  exact hb d hd

theorem nodeCounterOf_lt (ns : List Node) : nodeCounterOf ns < 2 ^ 64 := by
  rw [nodeCounterOf_eq_map]
  exact counter_foldlN_lt _ 1 (by norm_num)

theorem edgeCounterOf_lt (es : List Edge) : edgeCounterOf es < 2 ^ 64 := by
  rw [edgeCounterOf_eq_map]
  exact counter_foldlN_lt _ 1 (by norm_num)

theorem WF_nodes_fresh (s : InMemoryGraphStore) (h : WF s)
    (hb : ∀ kv ∈ s.nodes, kv.2.id + 1 < 2 ^ 64) :
    hmGet s.nodes s.next_node_id = none := by
  obtain ⟨hN, _, _, _, _, _, _, hNN, _⟩ := h
  cases hg : hmGet s.nodes s.next_node_id with
  | none => rfl
  | some v =>
    have hmem := hmGet_some_mem _ _ _ hg
    have hid := (hN _ hmem).1
    have hlt : v.id < nodeCounterOf (s.nodes.map Prod.snd) := by
      refine mem_lt_nodeCounterOf _ v ?_ (List.mem_map_of_mem Prod.snd hmem)
      intro m hm
      obtain ⟨kv, hkv, rfl⟩ := List.mem_map.mp hm
      exact hb kv hkv
    rw [hid, ← hNN] at hlt
    omega

theorem WF_edges_fresh (s : InMemoryGraphStore) (h : WF s)
    (hb : ∀ kv ∈ s.edges, kv.2.id + 1 < 2 ^ 64) :
    hmGet s.edges s.next_edge_id = none := by
  obtain ⟨_, hE, _, _, _, _, _, _, hNE⟩ := h
  cases hg : hmGet s.edges s.next_edge_id with
  | none => rfl
  | some v =>
    have hmem := hmGet_some_mem _ _ _ hg
    have hid := (hE _ hmem).1
    have hlt : v.id < edgeCounterOf (s.edges.map Prod.snd) := by
      refine mem_lt_edgeCounterOf _ v ?_ (List.mem_map_of_mem Prod.snd hmem)
      intro d hd
      obtain ⟨kv, hkv, rfl⟩ := List.mem_map.mp hd
      exact hb kv hkv
    rw [hid, ← hNE] at hlt
    omega

theorem WF_applyMut (s : InMemoryGraphStore) (m : Mutation) (h : WF s)
    (hb : match m with
      | .addNodeM _ props =>
          (∀ kv ∈ s.nodes, kv.2.id + 1 < 2 ^ 64) ∧ (props.map Prod.fst).Nodup
      | .addEdgeM f t _ props =>
          (∀ kv ∈ s.edges, kv.2.id + 1 < 2 ^ 64) ∧ f < 2 ^ 64 ∧ t < 2 ^ 64 ∧
            (props.map Prod.fst).Nodup) :
    WF (applyMut s m) := by
  obtain ⟨hN, hE, hndN, hndE, hLI, hAO, hAI, hNN, hNE⟩ := h
  cases m with
  | addNodeM labels props =>
    obtain ⟨hids, hpnd⟩ := hb
    have h64 : s.next_node_id < 2 ^ 64 := by
      rw [hNN]
      exact nodeCounterOf_lt _
    have hfresh : hmGet s.nodes s.next_node_id = none :=
      WF_nodes_fresh s ⟨hN, hE, hndN, hndE, hLI, hAO, hAI, hNN, hNE⟩ hids
    have hnodes' : (applyMut s (Mutation.addNodeM labels props)).nodes =
        s.nodes ++ [(s.next_node_id,
          (⟨s.next_node_id, labels, props⟩ : Node))] := by
      show hmInsert s.nodes s.next_node_id _ = _
      exact hmInsert_append _ _ _ hfresh
    refine ⟨?_, ?_, ?_, ?_, ?_, ?_, ?_, ?_, ?_⟩
    · rw [hnodes']
      intro kv hkv
      rcases List.mem_append.mp hkv with hold | hnew
      · exact hN kv hold
      · obtain rfl : kv = (s.next_node_id,
            (⟨s.next_node_id, labels, props⟩ : Node)) := by simpa using hnew
        exact ⟨rfl, h64, hpnd⟩
    · intro kv hkv
      exact hE kv hkv
    · rw [hnodes', List.map_append, List.nodup_append]
      refine ⟨hndN, by simp, ?_⟩
      intro a ha hb2
      obtain rfl : a = s.next_node_id := by simpa using hb2
      obtain ⟨kv, hkv, hfst⟩ := List.mem_map.mp ha
      exact absurd hfst ((hmGet_eq_none_iff _ _).mp hfresh kv hkv)
    · exact hndE
    · rw [hnodes', List.map_append]
      simp only [List.map_cons, List.map_nil]
      have hsplit : buildLabelIndex (s.nodes.map Prod.snd ++
          [(⟨s.next_node_id, labels, props⟩ : Node)]) =
          labels.foldl (fun li2 label => hmPush li2 label s.next_node_id)
            (buildLabelIndex (s.nodes.map Prod.snd)) := by
        unfold buildLabelIndex
        rw [List.foldl_append]
        rfl
      rw [hsplit, ← hLI]
      rfl
    · exact hAO
    · exact hAI
    · rw [hnodes', List.map_append]
      simp only [List.map_cons, List.map_nil]
      have hsplit : nodeCounterOf (s.nodes.map Prod.snd ++
          [(⟨s.next_node_id, labels, props⟩ : Node)]) =
          if nodeCounterOf (s.nodes.map Prod.snd) ≤ s.next_node_id then
            (s.next_node_id + 1) % 2 ^ 64
          else nodeCounterOf (s.nodes.map Prod.snd) := by
        unfold nodeCounterOf
        rw [List.foldl_append]
        rfl
      rw [hsplit, ← hNN, if_pos (le_refl s.next_node_id)]
      rfl
    · show s.next_edge_id = edgeCounterOf (s.edges.map Prod.snd)
      exact hNE
  | addEdgeM f t ty props =>
    obtain ⟨hids, hf64, ht64, hpnd⟩ := hb
    have h64 : s.next_edge_id < 2 ^ 64 := by
      rw [hNE]
      exact edgeCounterOf_lt _
    have hfresh : hmGet s.edges s.next_edge_id = none :=
      WF_edges_fresh s ⟨hN, hE, hndN, hndE, hLI, hAO, hAI, hNN, hNE⟩ hids
    have hedges' : (applyMut s (Mutation.addEdgeM f t ty props)).edges =
        s.edges ++ [(s.next_edge_id,
          (⟨s.next_edge_id, f, t, ty, props⟩ : Edge))] := by
      show hmInsert s.edges s.next_edge_id _ = _
      exact hmInsert_append _ _ _ hfresh
    refine ⟨?_, ?_, ?_, ?_, ?_, ?_, ?_, ?_, ?_⟩
    · intro kv hkv
      exact hN kv hkv
    · rw [hedges']
      intro kv hkv
      rcases List.mem_append.mp hkv with hold | hnew
      · exact hE kv hold
      · obtain rfl : kv = (s.next_edge_id,
            (⟨s.next_edge_id, f, t, ty, props⟩ : Edge)) := by simpa using hnew
        exact ⟨rfl, h64, hf64, ht64, hpnd⟩
    · exact hndN
    · rw [hedges', List.map_append, List.nodup_append]
      refine ⟨hndE, by simp, ?_⟩
      intro a ha hb2
      obtain rfl : a = s.next_edge_id := by simpa using hb2
      obtain ⟨kv, hkv, hfst⟩ := List.mem_map.mp ha
      exact absurd hfst ((hmGet_eq_none_iff _ _).mp hfresh kv hkv)
    · show s.label_index = buildLabelIndex (s.nodes.map Prod.snd)
      exact hLI
    · rw [hedges', List.map_append]
      simp only [List.map_cons, List.map_nil]
      have hsplit : buildAdjOut (s.edges.map Prod.snd ++
          [(⟨s.next_edge_id, f, t, ty, props⟩ : Edge)]) =
          hmPush (buildAdjOut (s.edges.map Prod.snd)) f s.next_edge_id := by
        unfold buildAdjOut
        rw [List.foldl_append]
        rfl
      rw [hsplit, ← hAO]
      rfl
    · rw [hedges', List.map_append]
      simp only [List.map_cons, List.map_nil]
      have hsplit : buildAdjIn (s.edges.map Prod.snd ++
          [(⟨s.next_edge_id, f, t, ty, props⟩ : Edge)]) =
          hmPush (buildAdjIn (s.edges.map Prod.snd)) t s.next_edge_id := by
        unfold buildAdjIn
        rw [List.foldl_append]
        rfl
      rw [hsplit, ← hAI]
      rfl
    · show s.next_node_id = nodeCounterOf (s.nodes.map Prod.snd)
      exact hNN
    · rw [hedges', List.map_append]
      simp only [List.map_cons, List.map_nil]
      have hsplit : edgeCounterOf (s.edges.map Prod.snd ++
          [(⟨s.next_edge_id, f, t, ty, props⟩ : Edge)]) =
          if edgeCounterOf (s.edges.map Prod.snd) ≤ s.next_edge_id then
            (s.next_edge_id + 1) % 2 ^ 64
          else edgeCounterOf (s.edges.map Prod.snd) := by
        unfold edgeCounterOf
        rw [List.foldl_append]
        rfl
      rw [hsplit, ← hNE, if_pos (le_refl s.next_edge_id)]
      rfl
